import Mathlib

/-!
# Blockchain parser: indexing engine

A shallow embedding of the Go packages `pkg/eth`, `pkg/notif`,
`pkg/eth/subscriptions`, `pkg/eth/store` and `pkg/eth/parser`.

* Go `int64` values are `Int`s; every arithmetic result is passed through
  `wrapInt64`, so that overflow is visible.
* A `*big.Int` is an `Option Int` (`none` is the nil pointer).
* A Go map with string keys is a function `String → Option V` (`none` is an
  absent key); a slice is a `List` (the nil slice is `[]`).
* The `for` loop of `indexSubbedTransactionsForBlockRange` takes fuel: one
  unit per evaluation of the loop condition, `none` when the fuel runs out.
* The methods of `math/big` and `strings` that the source calls (`String`,
  `Int64`, `SetString`, `TrimPrefix`) are modelled after the Go standard
  library; input bytes are `Char`s.
* Log output is not modelled.
-/

/-! ## Machine integers -/

/-- Smallest `int64`. -/
def minInt64 : Int := -(2 : Int) ^ 63

/-- Largest `int64`. -/
def maxInt64 : Int := (2 : Int) ^ 63 - 1

/-- Two's-complement wrap of an integer into the `int64` range, the result of
Go `int64` arithmetic. -/
def wrapInt64 (x : Int) : Int := (x + 2 ^ 63) % 2 ^ 64 - 2 ^ 63

/-- The value is representable as an `int64`. -/
def isInt64 (x : Int) : Prop := minInt64 ≤ x ∧ x ≤ maxInt64

instance (x : Int) : Decidable (isInt64 x) := by unfold isInt64; infer_instance

/-! ## Go maps keyed by strings -/

/-- Go `map[string]V`: `none` marks an absent key. -/
abbrev GoMap (V : Type) := String → Option V

namespace GoMap

/-- Result of `make(map[string]V)`. -/
def make {V : Type} : GoMap V := fun _ => none

/-- Assignment `m[k] = v`. -/
def set {V : Type} (m : GoMap V) (k : String) (v : V) : GoMap V :=
  fun j => if j = k then some v else m j

/-- Builtin `delete(m, k)`. -/
def delete {V : Type} (m : GoMap V) (k : String) : GoMap V :=
  fun j => if j = k then none else m j

/-- Comma-ok read `_, exists := m[k]`. -/
def has {V : Type} (m : GoMap V) (k : String) : Bool := (m k).isSome

end GoMap

/-! ## pkg/eth/txn.go -/

namespace eth

/-- Go `eth.Txn`: an Ethereum transaction. -/
structure Txn where
  From : String
  To : String
  Hash : String
  Value : Option Int
  BlockNumber : Option Int
  TransactionIndex : Option Int
  deriving DecidableEq

end eth

/-! ## pkg/notif/transaction.go -/

namespace notif

/-- Go `notif.Txn`: the wire record read by notification consumers. -/
structure Txn where
  From : String
  To : String
  Value : String
  Hash : String
  Block : Int
  deriving DecidableEq

end notif

/-! ## math/big methods used by the projection -/

/-- Go `(*big.Int).String`: base-10 text, and the text `<nil>` for a nil pointer. -/
def bigIntString (x : Option Int) : String :=
  match x with
  | none => "<nil>"
  | some v => toString v

/-- Go `(*big.Int).Int64`: the low 64 bits of the magnitude read as an `int64`,
negated (with wrap) for a negative number. A nil pointer is dereferenced, which
panics: `none`. -/
def bigIntInt64 (x : Option Int) : Option Int :=
  match x with
  | none => none
  | some v =>
    let lo := wrapInt64 ((v.natAbs % 2 ^ 64 : Nat) : Int)
    some (if v < 0 then wrapInt64 (-lo) else lo)

/-! ## pkg/eth/subscriptions/subscriptions.go -/

namespace sub

/-- Go `sub.SubStore`. -/
structure SubStore where
  subscribers : GoMap Bool

namespace SubStore

/-- Go `sub.New`. -/
def New : SubStore := { subscribers := GoMap.make }

/-- Go `(*SubStore).Check`. -/
def Check (sm : SubStore) (address : String) : Bool :=
  sm.subscribers.has address

/-- Go `(*SubStore).Add`: the returned flag and the store afterwards. -/
def Add (sm : SubStore) (address : String) : Bool × SubStore :=
  if sm.Check address then
    (false, sm)
  else
    (true, { sm with subscribers := sm.subscribers.set address true })

/-- Go `(*SubStore).Remove`: the returned flag and the store afterwards. -/
def Remove (sm : SubStore) (address : String) : Bool × SubStore :=
  if !sm.Check address then
    (false, sm)
  else
    (true, { sm with subscribers := sm.subscribers.delete address })

end SubStore

end sub

/-! ## pkg/eth/store/store.go -/

namespace store

/-- Go `store.InMemStore`. -/
structure InMemStore where
  lastBlock : Int
  transactions : GoMap (List eth.Txn)

namespace InMemStore

/-- Go `store.NewInMemStore`: `lastBlock` has the zero value. -/
def NewInMemStore : InMemStore := { lastBlock := 0, transactions := GoMap.make }

/-- Go `(*InMemStore).SaveBlock` (the returned error is always nil). -/
def SaveBlock (s : InMemStore) (blockNumber : Int) : InMemStore :=
  { s with lastBlock := blockNumber }

/-- Go `(*InMemStore).GetLastBlock` (the returned error is always nil). -/
def GetLastBlock (s : InMemStore) : Int := s.lastBlock

/-- Go `(*InMemStore).GetTransactions`: the map read `s.transactions[address]`,
the nil slice for an absent key (the returned error is always nil). -/
def GetTransactions (s : InMemStore) (address : String) : List eth.Txn :=
  (s.transactions address).getD []

/-- Go `(*InMemStore).SaveTransaction`: two map assignments in sequence, the
second reading the map the first one wrote (the returned error is always nil). -/
def SaveTransaction (s : InMemStore) (tx : eth.Txn) : InMemStore :=
  let s1 : InMemStore :=
    { s with transactions := s.transactions.set tx.From (s.GetTransactions tx.From ++ [tx]) }
  { s1 with transactions := s1.transactions.set tx.To (s1.GetTransactions tx.To ++ [tx]) }

end InMemStore

end store

/-! ## The blockchain reader (interface `client` of pkg/eth/parser/parser.go) -/

/-- An implementation of the `client` interface: what `GetLatestBlock` answers
(`none` is an error), what `GetBlockTransactions` answers for each block number
(`none` is an error), and the log of the block numbers requested so far. -/
structure Client where
  latestBlock : Option Int
  blocks : Int → Option (List eth.Txn)
  requested : List Int

namespace Client

/-- Interface method `GetLatestBlock`. -/
def GetLatestBlock (c : Client) : Option Int := c.latestBlock

/-- Interface method `GetBlockTransactions`: the answer, and the client with the
request logged. -/
def GetBlockTransactions (c : Client) (blockNumber : Int) :
    Option (List eth.Txn) × Client :=
  (c.blocks blockNumber, { c with requested := c.requested ++ [blockNumber] })

end Client

/-! ## pkg/eth/parser/parser.go and notif.go -/

namespace parser

/-- Go constant `LOOKBACK_FROM_LATEST`. -/
def LOOKBACK_FROM_LATEST : Int := 20

/-- Go `parser.Parser`. -/
structure Parser where
  currentBlock : Int
  subscriptions : sub.SubStore
  client : Client
  store : store.InMemStore

/-- Go `parser.New`: `currentBlock` has the zero value. -/
def New (subs : sub.SubStore) (client : Client) (st : store.InMemStore) : Parser :=
  { currentBlock := 0, subscriptions := subs, client := client, store := st }

namespace Parser

/-- Go `(*Parser).processTransaction`. -/
def processTransaction (p : Parser) (tx : eth.Txn) : Parser :=
  if p.subscriptions.Check tx.From || p.subscriptions.Check tx.To then
    { p with store := p.store.SaveTransaction tx }
  else
    p

/-- Go `(*Parser).updateCurrentBlock`. -/
def updateCurrentBlock (p : Parser) (blockNumber : Int) : Parser :=
  { p with currentBlock := blockNumber, store := p.store.SaveBlock blockNumber }

/-- One pass through the body of the `for` loop of
`indexSubbedTransactionsForBlockRange` for the block `blockNumber`: on a fetch
error the `continue` skips the rest of the body. -/
def indexBlock (p : Parser) (blockNumber : Int) : Parser :=
  match p.client.GetBlockTransactions blockNumber with
  | (none, c) => { p with client := c }
  | (some transactions, c) =>
    updateCurrentBlock (transactions.foldl processTransaction { p with client := c }) blockNumber

/-- Go `(*Parser).indexSubbedTransactionsForBlockRange`. The second `Int` is
the loop variable `blockNumber`, starting at `startBlock`; its increment wraps
as `int64` does. Each evaluation of the loop condition takes one unit of fuel. -/
def indexSubbedTransactionsForBlockRange :
    Nat → Parser → Int → Int → Option Parser
  | 0, _, _, _ => none
  | fuel + 1, p, blockNumber, endBlock =>
    if blockNumber ≤ endBlock then
      indexSubbedTransactionsForBlockRange fuel (indexBlock p blockNumber)
        (wrapInt64 (blockNumber + 1)) endBlock
    else
      some p

/-- Go `(*Parser).getCurrentBlock`. -/
def getCurrentBlock (p : Parser) : Int := p.currentBlock

/-- Go `(*Parser).GetCurrentBlock`. -/
def GetCurrentBlock (p : Parser) : Int := p.getCurrentBlock

/-- What `Start` does before it enters the polling loop. -/
inductive StartResult where
  | fatal
  | outOfFuel
  | indexed (p : Parser)

/-- Go `(*Parser).Start` up to the call of `parse`: `log.Fatal` when the latest
block cannot be fetched, else the initial indexing. -/
def Start (fuel : Nat) (p : Parser) : StartResult :=
  match p.client.GetLatestBlock with
  | none => StartResult.fatal
  | some latestBlock =>
    let startBlock := wrapInt64 (latestBlock - LOOKBACK_FROM_LATEST)
    let startBlock := if startBlock < 0 then 0 else startBlock
    match indexSubbedTransactionsForBlockRange fuel p startBlock latestBlock with
    | none => StartResult.outOfFuel
    | some q => StartResult.indexed q

/-- One firing of the ticker in Go `(*Parser).parse`: a failed `GetLatestBlock`
is logged and the tick does nothing more. -/
def tick (fuel : Nat) (p : Parser) : Option Parser :=
  match p.client.GetLatestBlock with
  | none => some p
  | some latestBlock =>
    let startBlock := p.currentBlock
    indexSubbedTransactionsForBlockRange fuel p startBlock latestBlock

/-- Go `(*Parser).backfill`. -/
def backfill (fuel : Nat) (p : Parser) : Option Parser :=
  let startBlock := wrapInt64 (p.currentBlock - LOOKBACK_FROM_LATEST)
  let startBlock := if startBlock < 0 then 0 else startBlock
  indexSubbedTransactionsForBlockRange fuel p startBlock p.currentBlock

/-- Result of a `Subscribe` call: the returned flag, whether `go p.backfill()`
was executed, and the parser afterwards (before the backfill runs). -/
structure SubscribeResult where
  ok : Bool
  backfillSpawned : Bool
  parser : Parser

/-- Go `(*Parser).subscribe`. -/
def subscribe (p : Parser) (address : String) : SubscribeResult :=
  if p.subscriptions.Check address then
    { ok := false, backfillSpawned := false, parser := p }
  else
    { ok := true, backfillSpawned := true,
      parser := { p with subscriptions := (p.subscriptions.Add address).2 } }

/-- Go `(*Parser).Subscribe`. -/
def Subscribe (p : Parser) (address : String) : SubscribeResult := p.subscribe address

/-- Go `(*Parser).unsubscribe`. -/
def unsubscribe (p : Parser) (address : String) : Bool × Parser :=
  ((p.subscriptions.Remove address).1,
    { p with subscriptions := (p.subscriptions.Remove address).2 })

/-- Go `(*Parser).Unsubscribe`. -/
def Unsubscribe (p : Parser) (address : String) : Bool × Parser := p.unsubscribe address

/-- Go `(*Parser).getTransactions`: `none` is the error for an address that is
not subscribed. -/
def getTransactions (p : Parser) (address : String) : Option (List eth.Txn) :=
  if !p.subscriptions.Check address then
    none
  else
    some (p.store.GetTransactions address)

/-- Go `intoNotifTxn`: `none` when `Int64` panics on a nil block number. -/
def intoNotifTxn (t : eth.Txn) : Option notif.Txn :=
  match bigIntInt64 t.BlockNumber with
  | none => none
  | some block =>
    some { From := t.From, To := t.To, Value := bigIntString t.Value, Hash := t.Hash,
           Block := block }

/-- Go `slices.Collect(customIter.Map(txns, intoNotifTxn))`: the records in
slice order, `none` when a projection panics. -/
def collectMap (txns : List eth.Txn) : Option (List notif.Txn) :=
  txns.mapM intoNotifTxn

/-- Go `(*Parser).GetTransactions`: the nil slice when `getTransactions` fails,
else the projected records; `none` is a panic inside the projection. -/
def GetTransactions (p : Parser) (address : String) : Option (List notif.Txn) :=
  match p.getTransactions address with
  | none => some []
  | some txns => collectMap txns

end Parser

end parser

/-! ## Auxiliary definitions used to state the properties -/

open parser parser.Parser

/-- The copies of `tx` that `SaveTransaction` files under the key `x`: one for
the sender role and one for the recipient role. -/
def fanOut (x : String) (tx : eth.Txn) : List eth.Txn :=
  (if tx.From = x then [tx] else []) ++ (if tx.To = x then [tx] else [])

/-- What processing `tx` under the registry `reg` adds to the entry of `x`. -/
def retained (reg : sub.SubStore) (x : String) (tx : eth.Txn) : List eth.Txn :=
  if reg.Check tx.From || reg.Check tx.To then fanOut x tx else []

/-- What processing the transactions of one block, in order, adds to the entry
of `x`. -/
def blockDelta (reg : sub.SubStore) (x : String) : List eth.Txn → List eth.Txn
  | [] => []
  | tx :: rest => retained reg x tx ++ blockDelta reg x rest

/-- What scanning the `n` blocks `s, s+1, ...` adds to the entry of `x`: a block
whose fetch fails adds nothing. -/
def rangeDelta (blocks : Int → Option (List eth.Txn)) (reg : sub.SubStore) (x : String) :
    Nat → Int → List eth.Txn
  | 0, _ => []
  | n + 1, s => blockDelta reg x ((blocks s).getD []) ++ rangeDelta blocks reg x n (s + 1)

/-- The `n` consecutive block numbers `s, s+1, ...`, ascending. -/
def blockNumbers : Nat → Int → List Int
  | 0, _ => []
  | n + 1, s => s :: blockNumbers n (s + 1)

/-- The loop body applied to the `n` consecutive blocks `s, s+1, ...`. -/
def scanBlocks (p : Parser) : Nat → Int → Parser
  | 0, _ => p
  | n + 1, s => scanBlocks (p.indexBlock s) n (s + 1)

/-- Number of blocks in the range `[s, e]` (zero when `e < s`). -/
def rangeLength (s e : Int) : Nat := (e + 1 - s).toNat

/-- Transaction of block 1 in `TestParserEndToEnd`. -/
def testTx1 : eth.Txn :=
  { From := "0x1234", To := "0x5678", Hash := "0xabcd", Value := some 100,
    BlockNumber := some 1, TransactionIndex := none }

/-- Transaction of block 2 in `TestParserEndToEnd`. -/
def testTx2 : eth.Txn :=
  { From := "0x5678", To := "0x1234", Hash := "0xefgh", Value := some 200,
    BlockNumber := some 2, TransactionIndex := none }

/-- The `mockClient` of `TestParserEndToEnd`: latest block 2, one transaction in
each of the blocks 1 and 2, and the nil slice (no error) for every other block. -/
def testClient : Client :=
  { latestBlock := some 2,
    blocks := fun n => if n = 1 then some [testTx1] else if n = 2 then some [testTx2] else some [],
    requested := [] }

/-- A reader that reports `latest` as the latest block and whose block fetches
all fail. -/
def failingClient (latest : Int) : Client :=
  { latestBlock := some latest, blocks := fun _ => none, requested := [] }

/-- A reader that reports `latest` as the latest block and serves `txs` as the
content of every block. -/
def constClient (latest : Int) (txs : List eth.Txn) : Client :=
  { latestBlock := some latest, blocks := fun _ => some txs, requested := [] }

/-- A parser over `client` with the given subscribed addresses, an empty store
and cursor zero. -/
def parserWith (addresses : List String) (client : Client) : Parser :=
  New (addresses.foldl (fun sm a => (sm.Add a).2) sub.SubStore.New) client
    store.InMemStore.NewInMemStore

/-- A parser that is subscribed to nothing while its store holds the entries
written for `testTx1`. -/
def orphanParser : Parser :=
  New sub.SubStore.New testClient (store.InMemStore.NewInMemStore.SaveTransaction testTx1)

/-- A parser subscribed to `0x1234` whose store holds the entries written for
`testTx1`. -/
def watchingParser : Parser :=
  New (sub.SubStore.New.Add "0x1234").2 testClient
    (store.InMemStore.NewInMemStore.SaveTransaction testTx1)

/-- First block of the look-back window that ends at `latest`. -/
def lookbackStart (latest : Int) : Int := max 0 (latest - LOOKBACK_FROM_LATEST)

/-- The transactions of one block that touch the address `a`, in block order:
one copy when `a` is the sender and one more when `a` is the recipient. -/
def emitFor (a : String) : List eth.Txn → List eth.Txn
  | [] => []
  | tx :: rest => fanOut a tx ++ emitFor a rest

/-- Walk of the listed blocks, in the order given, collecting from each block
the transactions that touch `a`. -/
def walkBlocks (a : String) (blocks : Int → Option (List eth.Txn)) : List Int → List eth.Txn
  | [] => []
  | n :: rest => emitFor a ((blocks n).getD []) ++ walkBlocks a blocks rest

/-- The history of `a` over the look-back window: the blocks
`max(0, latest-20) .. latest` in ascending order. -/
def windowHistory (a : String) (blocks : Int → Option (List eth.Txn)) (latest : Int) :
    List eth.Txn :=
  walkBlocks a blocks
    (blockNumbers (rangeLength (lookbackStart latest) latest) (lookbackStart latest))

/-- The sequential run of `TestParserEndToEnd` over the reader `c` for the
address `a`: `Start` on a fresh parser up to the end of the initial indexing,
then `Subscribe(a)`, then the backfill it spawned run to its end, then
`GetTransactions(a)`. The outer `none` means that `Start` was fatal or that a
scan did not end within the fuel. -/
def endToEndRun (fuel : Nat) (c : Client) (a : String) : Option (Option (List notif.Txn)) :=
  match Start fuel (New sub.SubStore.New c store.InMemStore.NewInMemStore) with
  | StartResult.indexed p1 =>
    if (p1.Subscribe a).backfillSpawned then
      match backfill fuel (p1.Subscribe a).parser with
      | some p2 => some (p2.GetTransactions a)
      | none => none
    else
      some ((p1.Subscribe a).parser.GetTransactions a)
  | _ => none

/-- A reader with the blocks of `testClient` that reports the largest `int64` as
the latest block. -/
def testClientAtMax : Client := { testClient with latestBlock := some maxInt64 }

/-- A reader whose fetch of block 2 fails and whose other blocks are empty. -/
def flakyClient : Client :=
  { latestBlock := some 2, blocks := fun n => if n = 2 then none else some [], requested := [] }

/-! ## Sequential model at block granularity

The operations of the engine interleaved one loop iteration at a time: at most
one range scan is in progress; a polling tick or a spawned backfill begins only
when no scan is in progress; `Subscribe`, `Unsubscribe` and `GetTransactions`
calls and changes of the chain seen by the reader may come between any two
iterations. -/

/-- The operation that began the range scan in progress. -/
inductive ScanKind where
  | initial
  | poll
  | backfill
  deriving DecidableEq

/-- A call of `indexSubbedTransactionsForBlockRange` in progress: its loop
variable and its `endBlock`. -/
structure Scan where
  kind : ScanKind
  blockNumber : Int
  endBlock : Int

/-- State of the sequential model: the parser, the scan in progress if any, and
the number of `go p.backfill()` goroutines spawned and not yet begun. -/
structure Sys where
  parser : Parser
  scan : Option Scan
  pendingBackfills : Nat

/-- Steps of the sequential model. -/
inductive Event where
  | iterate
  | tick
  | startBackfill
  | subscribe (address : String)
  | unsubscribe (address : String)
  | getTransactions (address : String)
  | reader (latestBlock : Option Int) (blocks : Int → Option (List eth.Txn))

/-- Go `(*Parser).Start` up to the first evaluation of the loop condition:
`none` is `log.Fatal`. -/
def boot (p : Parser) : Option Sys :=
  match p.client.GetLatestBlock with
  | none => none
  | some latestBlock =>
    let startBlock := wrapInt64 (latestBlock - LOOKBACK_FROM_LATEST)
    let startBlock := if startBlock < 0 then 0 else startBlock
    some { parser := p,
           scan := some { kind := ScanKind.initial, blockNumber := startBlock,
                          endBlock := latestBlock },
           pendingBackfills := 0 }

/-- One step of the sequential model.
* `iterate`: the scan in progress evaluates its loop condition once, and runs
  the loop body and the increment, or ends.
* `tick`: with no scan in progress, the ticker case of `parse` up to the first
  evaluation of the loop condition.
* `startBackfill`: with no scan in progress, a spawned `backfill` begins.
* `subscribe`, `unsubscribe`, `getTransactions`: the public calls.
* `reader`: the chain seen by the reader changes. -/
def step (e : Event) (s : Sys) : Sys :=
  match e with
  | Event.iterate =>
    match s.scan with
    | none => s
    | some sc =>
      if sc.blockNumber ≤ sc.endBlock then
        { s with parser := s.parser.indexBlock sc.blockNumber,
                 scan := some { sc with blockNumber := wrapInt64 (sc.blockNumber + 1) } }
      else
        { s with scan := none }
  | Event.tick =>
    match s.scan with
    | some _ => s
    | none =>
      match s.parser.client.GetLatestBlock with
      | none => s
      | some latestBlock =>
        { s with scan := some { kind := ScanKind.poll, blockNumber := s.parser.currentBlock,
                                endBlock := latestBlock } }
  | Event.startBackfill =>
    match s.scan, s.pendingBackfills with
    | none, k + 1 =>
      let startBlock := wrapInt64 (s.parser.currentBlock - LOOKBACK_FROM_LATEST)
      let startBlock := if startBlock < 0 then 0 else startBlock
      { s with scan := some { kind := ScanKind.backfill, blockNumber := startBlock,
                              endBlock := s.parser.currentBlock },
               pendingBackfills := k }
    | _, _ => s
  | Event.subscribe address =>
    { s with parser := (s.parser.Subscribe address).parser,
             pendingBackfills :=
               if (s.parser.Subscribe address).backfillSpawned then s.pendingBackfills + 1
               else s.pendingBackfills }
  | Event.unsubscribe address => { s with parser := (s.parser.Unsubscribe address).2 }
  | Event.getTransactions _ => s
  | Event.reader latestBlock blocks =>
    { s with parser :=
        { s.parser with client :=
            { s.parser.client with latestBlock := latestBlock, blocks := blocks } } }

/-- The steps of `evs`, in order. -/
def run (evs : List Event) (s : Sys) : Sys := evs.foldl (fun st e => step e st) s

/-- The step is one loop iteration of a backfill. -/
def isBackfillIteration (e : Event) (s : Sys) : Bool :=
  match e, s.scan with
  | Event.iterate, some sc => decide (sc.kind = ScanKind.backfill)
  | _, _ => false

/-- The latest block a `reader` step installs, if any, is below the largest
`int64`. -/
def Event.belowMax (e : Event) : Bool :=
  match e with
  | Event.reader (some latestBlock) _ => decide (latestBlock < maxInt64)
  | _ => true

/-- Invariant of the sequential model while the reader reports latest blocks
below the largest `int64`. -/
def Sys.inv (s : Sys) : Prop :=
  (∀ L, s.parser.client.latestBlock = some L → L < maxInt64) ∧
  0 ≤ s.parser.currentBlock ∧ s.parser.currentBlock < maxInt64 ∧
  (∀ sc, s.scan = some sc →
    0 ≤ sc.blockNumber ∧ sc.endBlock < maxInt64 ∧
    (sc.kind ≠ ScanKind.backfill → s.parser.currentBlock ≤ sc.blockNumber))

/-- State of the sequential model when `Start` has fetched the largest `int64`
as the latest block from `constClient maxInt64 []`. -/
def bootAtMax : Sys :=
  { parser := parserWith [] (constClient maxInt64 []),
    scan := some { kind := ScanKind.initial, blockNumber := maxInt64 - 20,
                   endBlock := maxInt64 },
    pendingBackfills := 0 }

/-- A transfer of `0x1234` to itself. -/
def selfTransferTx : eth.Txn :=
  { From := "0x1234", To := "0x1234", Hash := "0xself", Value := some 7,
    BlockNumber := some 3, TransactionIndex := none }

/-! ## The registry as a set of addresses (section 4.2 of the spec) -/

/-- Set reading of `add(addr)`: true if newly inserted, else false; the set
afterwards has `addr` inserted. -/
def setAdd (S : Finset String) (a : String) : Bool × Finset String :=
  (decide (a ∉ S), insert a S)

/-- Set reading of `remove(addr)`: true if it was present, else false; the set
afterwards has `addr` erased. -/
def setRemove (S : Finset String) (a : String) : Bool × Finset String :=
  (decide (a ∈ S), S.erase a)

/-- Set reading of `check(addr)`: the membership test. -/
def setCheck (S : Finset String) (a : String) : Bool := decide (a ∈ S)

/-- A call on the registry. -/
inductive RegistryOp where
  | add (address : String)
  | remove (address : String)
  | check (address : String)

/-- One call on the `SubStore` of the source: the returned flag and the store
afterwards. -/
def performOnStore (sm : sub.SubStore) : RegistryOp → Bool × sub.SubStore
  | RegistryOp.add a => sm.Add a
  | RegistryOp.remove a => sm.Remove a
  | RegistryOp.check a => (sm.Check a, sm)

/-- One call on the set: the returned flag and the set afterwards. -/
def performOnSet (S : Finset String) : RegistryOp → Bool × Finset String
  | RegistryOp.add a => setAdd S a
  | RegistryOp.remove a => setRemove S a
  | RegistryOp.check a => (setCheck S a, S)

/-- A sequence of calls on the `SubStore`: the returned flags in call order and
the store afterwards. -/
def runOnStore : List RegistryOp → sub.SubStore → List Bool × sub.SubStore
  | [], sm => ([], sm)
  | op :: rest, sm =>
    ((performOnStore sm op).1 :: (runOnStore rest (performOnStore sm op).2).1,
      (runOnStore rest (performOnStore sm op).2).2)

/-- A sequence of calls on the set: the returned flags in call order and the set
afterwards. -/
def runOnSet : List RegistryOp → Finset String → List Bool × Finset String
  | [], S => ([], S)
  | op :: rest, S =>
    ((performOnSet S op).1 :: (runOnSet rest (performOnSet S op).2).1,
      (runOnSet rest (performOnSet S op).2).2)

/-- The `SubStore` represents the set: `Check` is membership. -/
def representsSet (sm : sub.SubStore) (S : Finset String) : Prop :=
  ∀ a, sm.Check a = decide (a ∈ S)

/-! ## Hex decoding (pkg/eth/txn.go) and the math/big scanner it calls -/

/-- Digit value of a byte in `nat.scan` of math/big for a base up to 36: `none`
for a byte that is no letter or decimal digit. -/
def digitVal (ch : Char) : Option Nat :=
  if '0' ≤ ch ∧ ch ≤ '9' then some (ch.toNat - '0'.toNat)
  else if 'a' ≤ ch ∧ ch ≤ 'z' then some (ch.toNat - 'a'.toNat + 10)
  else if 'A' ≤ ch ∧ ch ≤ 'Z' then some (ch.toNat - 'A'.toNat + 10)
  else none

/-- The digit loop of `nat.scan` for an explicit base (no base prefix, no
separators): it consumes the leading digits below `base` and returns the value
read, the number of digits and the unread rest. -/
def scanDigits (base : Nat) : List Char → Nat → Nat → Nat × Nat × List Char
  | [], acc, count => (acc, count, [])
  | ch :: rest, acc, count =>
    match digitVal ch with
    | some d =>
      if d < base then scanDigits base rest (acc * base + d) (count + 1)
      else (acc, count, ch :: rest)
    | none => (acc, count, ch :: rest)

/-- Go `(*big.Int).SetString(s, base)` on a new `Int`, for an explicit base
from 2 to 36: the value held by the receiver afterwards and the `ok` flag.
An optional sign is read first; with no digit the receiver stays 0; with
digits followed by other bytes the receiver holds the digits read and `ok` is
false (the documentation leaves the value undefined then; this follows the
implementation). -/
def bigIntSetString (s : List Char) (base : Nat) : Int × Bool :=
  match s with
  | [] => (0, false)
  | c :: rest =>
    let body := if c = '+' ∨ c = '-' then rest else c :: rest
    let r := scanDigits base body 0 0
    if r.2.1 = 0 then (0, false)
    else (if c = '-' then -(r.1 : Int) else (r.1 : Int), decide (r.2.2 = []))

/-- Go `strings.TrimPrefix(s, lead)`. -/
def stringsTrimPrefix (s lead : String) : String :=
  if lead.data.isPrefixOf s.data then String.mk (s.data.drop lead.data.length) else s

/-- Go `parseHexBigInt`: the returned pointer, never nil; the result of
`SetString` is ignored, as in the source. -/
def parseHexBigInt (hex : String) : Option Int :=
  let hex := stringsTrimPrefix hex "0x"
  if hex = "" then
    some 0
  else
    some (bigIntSetString hex.data 16).1

/-- The hexadecimal digits of `n`, most significant first, in lowercase or in
uppercase letters. -/
def hexDigits (upper : Bool) (n : Nat) : String :=
  String.mk ((Nat.toDigits 16 n).map (fun c => if upper then c.toUpper else c))

/-! ## Truncation of a block number to 64 bits, in the words of the claim -/

/-- The low 64 bits of a magnitude, reinterpreted as a two's-complement
`int64`. -/
def low64AsInt64 (m : Nat) : Int :=
  if m % 2 ^ 64 < 2 ^ 63 then ((m % 2 ^ 64 : Nat) : Int) else ((m % 2 ^ 64 : Nat) : Int) - 2 ^ 64

/-- Truncation of an integer to `int64`: the low 64 bits of its magnitude
reinterpreted as a two's-complement `int64`, negated (as `int64` negation
does, with wrap) for a negative number. -/
def truncateToInt64 (b : Int) : Int :=
  if b < 0 then wrapInt64 (-(low64AsInt64 b.natAbs)) else low64AsInt64 b.natAbs

/-- A transaction whose block number and value both exceed 64 bits. -/
def hugeTx : eth.Txn :=
  { From := "0x1234", To := "0x5678", Hash := "0xbig", Value := some (2 ^ 70),
    BlockNumber := some (2 ^ 64 + 5), TransactionIndex := none }

/-- A parser subscribed to `0x1234` whose store holds `testTx1` and `testTx2`. -/
def testHistoryParser : Parser :=
  New (sub.SubStore.New.Add "0x1234").2 testClient
    ((store.InMemStore.NewInMemStore.SaveTransaction testTx1).SaveTransaction testTx2)

/-! ## Error containment and coverage, in the words of the claims -/

/-- Processing, in the order given, only the transactions of the listed blocks
whose fetch succeeds: a block whose fetch fails is left out. -/
def processFetched (blocks : Int → Option (List eth.Txn)) (p : Parser) (ns : List Int) :
    Parser :=
  (ns.filter (fun n => (blocks n).isSome)).foldl
    (fun q n => ((blocks n).getD []).foldl processTransaction q) p

/-- A reader whose fetch of block 1 fails; the blocks 0 and 2 each hold the
transaction of the end-to-end test with that number in its hash. -/
def gapClient : Client :=
  { latestBlock := some 2,
    blocks := fun n => if n = 1 then none else if n = 2 then some [testTx2] else some [testTx1],
    requested := [] }

/-- State of a scan of `[2^63-2, 2^63-1]` about to begin, over a reader that
serves `testTx1` in every block, with `0x1234` subscribed. -/
def scanAtMax : Sys :=
  { parser := parserWith ["0x1234"] (constClient maxInt64 [testTx1]),
    scan := some { kind := ScanKind.poll, blockNumber := maxInt64 - 1, endBlock := maxInt64 },
    pendingBackfills := 0 }

/-- Coverage invariant of the sequential model with lower bound `lo`: every
block from `lo` up to the cursor has been requested; while a scan is in
progress, what has been requested so far and where the cursor can be. -/
def Sys.covered (lo : Int) (s : Sys) : Prop :=
  match s.scan with
  | none => ∀ n, lo ≤ n → n ≤ s.parser.currentBlock → n ∈ s.parser.client.requested
  | some sc =>
    match sc.kind with
    | ScanKind.initial =>
      (∀ n, lo ≤ n → n < sc.blockNumber → n ∈ s.parser.client.requested) ∧
      (s.parser.currentBlock < sc.blockNumber ∨ sc.blockNumber ≤ sc.endBlock)
    | ScanKind.poll =>
      (∀ n, lo ≤ n → n < sc.blockNumber → n ∈ s.parser.client.requested) ∧
      (∀ n, lo ≤ n → n ≤ s.parser.currentBlock → n ∈ s.parser.client.requested)
    | ScanKind.backfill =>
      (∀ n, lo ≤ n → n ≤ sc.endBlock → n ∈ s.parser.client.requested) ∧
      s.parser.currentBlock ≤ sc.endBlock

/-- The initial indexing is over: no scan is in progress, or the scan in
progress is a polling tick or a backfill. -/
def initialized (s : Sys) : Bool :=
  match s.scan with
  | none => true
  | some sc => decide (sc.kind ≠ ScanKind.initial)

/-! ## Interleaving model at block granularity

The goroutines of the program interleaved one loop iteration at a time. `Start`
and the polling loop `parse` run in one goroutine, so the initial indexing and
the polling ticks follow one another; every `go p.backfill()` is a goroutine of
its own, which may begin at any time after its `Subscribe` (also before `Start`
has fetched the latest block, and while the initial indexing or a polling tick
is in progress) and whose iterations may fall between those of any other scan. -/

/-- State of the interleaving model: the parser; whether `Start` has fetched the
latest block; the scan of the goroutine of `Start` (initial indexing or polling
tick) if one is in progress; the backfills in progress, each with its loop
variable and its `endBlock`; the number of backfills spawned and not yet
begun. -/
structure ConcSys where
  parser : Parser
  started : Bool
  main : Option Scan
  backfills : List Scan
  pendingBackfills : Nat

/-- Steps of the interleaving model. -/
inductive ConcEvent where
  | start
  | iterateMain
  | tick
  | startBackfill
  | iterateBackfill (i : Nat)
  | subscribe (address : String)
  | unsubscribe (address : String)
  | getTransactions (address : String)
  | reader (latestBlock : Option Int) (blocks : Int → Option (List eth.Txn))

/-- The step is a loop iteration of a backfill. -/
def ConcEvent.isBackfillIteration (e : ConcEvent) : Bool :=
  match e with
  | ConcEvent.iterateBackfill _ => true
  | _ => false

/-- The latest block a `reader` step installs, if any, is below the largest
`int64`. -/
def ConcEvent.belowMax (e : ConcEvent) : Bool :=
  match e with
  | ConcEvent.reader (some latestBlock) _ => decide (latestBlock < maxInt64)
  | _ => true

/-- Invariant of the interleaving model while the reader reports latest blocks
below the largest `int64` and no tick begins during a backfill. -/
def ConcSys.inv (s : ConcSys) : Prop :=
  (∀ L, s.parser.client.latestBlock = some L → L < maxInt64) ∧
  0 ≤ s.parser.currentBlock ∧ s.parser.currentBlock < maxInt64 ∧
  (∀ bf ∈ s.backfills, 0 ≤ bf.blockNumber ∧ bf.endBlock < maxInt64) ∧
  (s.started = false →
    s.parser.currentBlock = 0 ∧ s.main = none ∧ ∀ bf ∈ s.backfills, bf.endBlock ≤ 0) ∧
  (∀ m, s.main = some m →
    0 ≤ m.blockNumber ∧ m.endBlock < maxInt64 ∧ s.parser.currentBlock ≤ m.blockNumber ∧
    ∀ bf ∈ s.backfills, bf.endBlock ≤ m.blockNumber)

theorem wrapInt64_eq_self {x : Int} (h : isInt64 x) : wrapInt64 x = x := by
  unfold isInt64 minInt64 maxInt64 at h
  unfold wrapInt64
  have h1 : (0 : Int) ≤ x + 2 ^ 63 := by omega
  have h2 : x + 2 ^ 63 < 2 ^ 64 := by omega
  rw [Int.emod_eq_of_lt h1 h2]
  omega

theorem wrapInt64_succ {x : Int} (h1 : minInt64 ≤ x) (h2 : x < maxInt64) :
    wrapInt64 (x + 1) = x + 1 := by
  apply wrapInt64_eq_self
  unfold isInt64 minInt64 maxInt64 at *
  omega

theorem wrapInt64_maxInt64_succ : wrapInt64 (maxInt64 + 1) = minInt64 := by decide

theorem le_maxInt64_of_isInt64 {x : Int} (h : isInt64 x) : x ≤ maxInt64 := h.2

/-! ## Registry and store: lemmas -/

theorem sub_check_new (a : String) : sub.SubStore.New.Check a = false := rfl

theorem sub_add_present (sm : sub.SubStore) (a : String) (h : sm.Check a = true) :
    sm.Add a = (false, sm) := by
  simp [sub.SubStore.Add, h]

theorem sub_add_absent (sm : sub.SubStore) (a : String) (h : sm.Check a = false) :
    sm.Add a = (true, { sm with subscribers := sm.subscribers.set a true }) := by
  simp [sub.SubStore.Add, h]

theorem sub_remove_present (sm : sub.SubStore) (a : String) (h : sm.Check a = true) :
    sm.Remove a = (true, { sm with subscribers := sm.subscribers.delete a }) := by
  simp [sub.SubStore.Remove, h]

theorem sub_remove_absent (sm : sub.SubStore) (a : String) (h : sm.Check a = false) :
    sm.Remove a = (false, sm) := by
  simp [sub.SubStore.Remove, h]

theorem sub_check_add (sm : sub.SubStore) (a b : String) :
    (sm.Add a).2.Check b = (decide (b = a) || sm.Check b) := by
  cases h : sm.Check a
  · rw [sub_add_absent sm a h]
    by_cases hb : b = a
    · simp [hb, sub.SubStore.Check, GoMap.has, GoMap.set]
    · simp [hb, sub.SubStore.Check, GoMap.has, GoMap.set]
  · rw [sub_add_present sm a h]
    by_cases hb : b = a
    · simp [hb, h]
    · simp [hb]

theorem sub_check_remove (sm : sub.SubStore) (a b : String) :
    (sm.Remove a).2.Check b = (!decide (b = a) && sm.Check b) := by
  cases h : sm.Check a
  · rw [sub_remove_absent sm a h]
    by_cases hb : b = a
    · simp [hb, h]
    · simp [hb]
  · rw [sub_remove_present sm a h]
    by_cases hb : b = a
    · simp [hb, sub.SubStore.Check, GoMap.has, GoMap.delete]
    · simp [hb, sub.SubStore.Check, GoMap.has, GoMap.delete]

theorem sub_remove_fst (sm : sub.SubStore) (a : String) :
    (sm.Remove a).1 = sm.Check a := by
  cases h : sm.Check a
  · rw [sub_remove_absent sm a h]
  · rw [sub_remove_present sm a h]

theorem store_saveTransaction_get (s : store.InMemStore) (tx : eth.Txn) (x : String) :
    (s.SaveTransaction tx).GetTransactions x = s.GetTransactions x ++ fanOut x tx := by
  unfold store.InMemStore.SaveTransaction store.InMemStore.GetTransactions fanOut GoMap.set
  by_cases h1 : tx.From = x <;> by_cases h2 : tx.To = x
  · simp [h1, h2]
  · have h2' : ¬ x = tx.To := fun h => h2 h.symm
    simp [h1, h2, h2']
  · have h1' : ¬ x = tx.From := fun h => h1 h.symm
    have h3 : ¬ tx.To = tx.From := fun h => h1 (h ▸ h2)
    simp [h1, h2, h1', h3]
  · have h1' : ¬ x = tx.From := fun h => h1 h.symm
    have h2' : ¬ x = tx.To := fun h => h2 h.symm
    simp [h1, h2, h1', h2']

theorem store_saveTransaction_lastBlock (s : store.InMemStore) (tx : eth.Txn) :
    (s.SaveTransaction tx).lastBlock = s.lastBlock := rfl

/-! ## The filter step and the loop body: lemmas -/

theorem processTransaction_frame (p : Parser) (tx : eth.Txn) :
    (p.processTransaction tx).subscriptions = p.subscriptions ∧
    (p.processTransaction tx).client = p.client ∧
    (p.processTransaction tx).currentBlock = p.currentBlock ∧
    (p.processTransaction tx).store.lastBlock = p.store.lastBlock := by
  unfold processTransaction
  split <;> simp [store_saveTransaction_lastBlock]

theorem processTransaction_get (p : Parser) (tx : eth.Txn) (x : String) :
    (p.processTransaction tx).store.GetTransactions x =
      p.store.GetTransactions x ++ retained p.subscriptions x tx := by
  unfold processTransaction retained
  split
  · simp [store_saveTransaction_get]
  · simp

theorem foldl_processTransaction_frame (txs : List eth.Txn) (p : Parser) :
    (txs.foldl processTransaction p).subscriptions = p.subscriptions ∧
    (txs.foldl processTransaction p).client = p.client ∧
    (txs.foldl processTransaction p).currentBlock = p.currentBlock ∧
    (txs.foldl processTransaction p).store.lastBlock = p.store.lastBlock := by
  induction txs generalizing p with
  | nil => simp
  | cons tx rest ih =>
    have h := processTransaction_frame p tx
    have h2 := ih (p.processTransaction tx)
    simp only [List.foldl_cons]
    refine ⟨?_, ?_, ?_, ?_⟩
    · rw [h2.1, h.1]
    · rw [h2.2.1, h.2.1]
    · rw [h2.2.2.1, h.2.2.1]
    · rw [h2.2.2.2, h.2.2.2]

theorem foldl_processTransaction_get (txs : List eth.Txn) (p : Parser) (x : String) :
    (txs.foldl processTransaction p).store.GetTransactions x =
      p.store.GetTransactions x ++ blockDelta p.subscriptions x txs := by
  induction txs generalizing p with
  | nil => simp [blockDelta]
  | cons tx rest ih =>
    simp only [List.foldl_cons, blockDelta]
    rw [ih, processTransaction_get, (processTransaction_frame p tx).1, List.append_assoc]

theorem indexBlock_fail (p : Parser) (n : Int) (h : p.client.blocks n = none) :
    p.indexBlock n =
      { p with client := { p.client with requested := p.client.requested ++ [n] } } := by
  simp [indexBlock, Client.GetBlockTransactions, h]

theorem indexBlock_ok (p : Parser) (n : Int) (txs : List eth.Txn)
    (h : p.client.blocks n = some txs) :
    p.indexBlock n =
      updateCurrentBlock
        (txs.foldl processTransaction
          { p with client := { p.client with requested := p.client.requested ++ [n] } }) n := by
  simp [indexBlock, Client.GetBlockTransactions, h]

theorem indexBlock_frame (p : Parser) (n : Int) :
    (p.indexBlock n).subscriptions = p.subscriptions ∧
    (p.indexBlock n).client.blocks = p.client.blocks ∧
    (p.indexBlock n).client.latestBlock = p.client.latestBlock ∧
    (p.indexBlock n).client.requested = p.client.requested ++ [n] := by
  cases h : p.client.blocks n with
  | none => rw [indexBlock_fail p n h]; simp
  | some txs =>
    rw [indexBlock_ok p n txs h]
    have hf := foldl_processTransaction_frame txs
      { p with client := { p.client with requested := p.client.requested ++ [n] } }
    simp [updateCurrentBlock, hf.1, hf.2.1]

theorem indexBlock_get (p : Parser) (n : Int) (x : String) :
    (p.indexBlock n).store.GetTransactions x =
      p.store.GetTransactions x ++ blockDelta p.subscriptions x ((p.client.blocks n).getD []) := by
  cases h : p.client.blocks n with
  | none => rw [indexBlock_fail p n h]; simp [blockDelta]
  | some txs =>
    rw [indexBlock_ok p n txs h]
    have hg := foldl_processTransaction_get txs
      { p with client := { p.client with requested := p.client.requested ++ [n] } } x
    simpa [updateCurrentBlock, store.InMemStore.SaveBlock, store.InMemStore.GetTransactions]
      using hg

theorem indexBlock_cursor_ok (p : Parser) (n : Int) (h : p.client.blocks n ≠ none) :
    (p.indexBlock n).currentBlock = n ∧ (p.indexBlock n).store.lastBlock = n := by
  cases hb : p.client.blocks n with
  | none => exact absurd hb h
  | some txs =>
    rw [indexBlock_ok p n txs hb]
    simp [updateCurrentBlock, store.InMemStore.SaveBlock]

theorem indexBlock_cursor_fail (p : Parser) (n : Int) (h : p.client.blocks n = none) :
    (p.indexBlock n).currentBlock = p.currentBlock ∧
    (p.indexBlock n).store = p.store := by
  rw [indexBlock_fail p n h]
  simp

/-! ## Scanning a run of consecutive blocks: lemmas -/

theorem scanBlocks_succ_last (n : Nat) (p : Parser) (s : Int) :
    scanBlocks p (n + 1) s = (scanBlocks p n s).indexBlock (s + n) := by
  induction n generalizing p s with
  | zero => simp [scanBlocks]
  | succ k ih =>
    have h := ih (p.indexBlock s) (s + 1)
    have e : s + 1 + (k : Int) = s + ((k + 1 : Nat) : Int) := by push_cast; ring
    rw [e] at h
    calc scanBlocks p (k + 1 + 1) s
        = scanBlocks (p.indexBlock s) (k + 1) (s + 1) := rfl
      _ = (scanBlocks (p.indexBlock s) k (s + 1)).indexBlock (s + ((k + 1 : Nat) : Int)) := h
      _ = (scanBlocks p (k + 1) s).indexBlock (s + ((k + 1 : Nat) : Int)) := rfl

theorem blockNumbers_succ_last (n : Nat) (s : Int) :
    blockNumbers (n + 1) s = blockNumbers n s ++ [s + n] := by
  induction n generalizing s with
  | zero => simp [blockNumbers]
  | succ k ih =>
    have h := ih (s + 1)
    have e : s + 1 + (k : Int) = s + ((k + 1 : Nat) : Int) := by push_cast; ring
    rw [e] at h
    calc blockNumbers (k + 1 + 1) s
        = s :: blockNumbers (k + 1) (s + 1) := rfl
      _ = s :: (blockNumbers k (s + 1) ++ [s + ((k + 1 : Nat) : Int)]) := by rw [h]
      _ = blockNumbers (k + 1) s ++ [s + ((k + 1 : Nat) : Int)] := rfl

theorem mem_blockNumbers (n : Nat) (s k : Int) :
    k ∈ blockNumbers n s ↔ s ≤ k ∧ k < s + n := by
  induction n generalizing s with
  | zero => simp [blockNumbers]
  | succ m ih =>
    simp only [blockNumbers, List.mem_cons, ih]
    push_cast
    omega

theorem blockNumbers_length (n : Nat) (s : Int) : (blockNumbers n s).length = n := by
  induction n generalizing s with
  | zero => rfl
  | succ m ih => simp [blockNumbers, ih]

theorem scanBlocks_frame (n : Nat) (p : Parser) (s : Int) :
    (scanBlocks p n s).subscriptions = p.subscriptions ∧
    (scanBlocks p n s).client.blocks = p.client.blocks ∧
    (scanBlocks p n s).client.latestBlock = p.client.latestBlock ∧
    (scanBlocks p n s).client.requested = p.client.requested ++ blockNumbers n s := by
  induction n generalizing p s with
  | zero => simp [scanBlocks, blockNumbers]
  | succ k ih =>
    have h := ih (p.indexBlock s) (s + 1)
    have hb := indexBlock_frame p s
    simp only [scanBlocks, blockNumbers]
    refine ⟨?_, ?_, ?_, ?_⟩
    · rw [h.1, hb.1]
    · rw [h.2.1, hb.2.1]
    · rw [h.2.2.1, hb.2.2.1]
    · rw [h.2.2.2, hb.2.2.2]; simp

theorem scanBlocks_get (n : Nat) (p : Parser) (s : Int) (x : String) :
    (scanBlocks p n s).store.GetTransactions x =
      p.store.GetTransactions x ++ rangeDelta p.client.blocks p.subscriptions x n s := by
  induction n generalizing p s with
  | zero => simp [scanBlocks, rangeDelta]
  | succ k ih =>
    simp only [scanBlocks, rangeDelta]
    rw [ih, indexBlock_get, (indexBlock_frame p s).1, (indexBlock_frame p s).2.1,
      List.append_assoc]

theorem scanBlocks_all_fail (n : Nat) (p : Parser) (s : Int)
    (h : ∀ k, s ≤ k → k < s + n → p.client.blocks k = none) :
    (scanBlocks p n s).currentBlock = p.currentBlock ∧ (scanBlocks p n s).store = p.store := by
  induction n generalizing p s with
  | zero => simp [scanBlocks]
  | succ m ih =>
    have h0 : p.client.blocks s = none := h s (le_refl s) (by push_cast; omega)
    have hc := indexBlock_cursor_fail p s h0
    have hrest : ∀ k, s + 1 ≤ k → k < s + 1 + m → (p.indexBlock s).client.blocks k = none := by
      intro k hk1 hk2
      rw [(indexBlock_frame p s).2.1]
      exact h k (by omega) (by push_cast; omega)
    have h2 := ih (p.indexBlock s) (s + 1) hrest
    simp only [scanBlocks]
    exact ⟨by rw [h2.1, hc.1], by rw [h2.2, hc.2]⟩

theorem scanBlocks_add (a b : Nat) (p : Parser) (s : Int) :
    scanBlocks p (a + b) s = scanBlocks (scanBlocks p a s) b (s + a) := by
  induction a generalizing p s with
  | zero => simp [scanBlocks]
  | succ k ih =>
    have e1 : k + 1 + b = (k + b) + 1 := by omega
    have e2 : s + ((k + 1 : Nat) : Int) = s + 1 + (k : Int) := by push_cast; ring
    rw [e1, e2]
    simp only [scanBlocks]
    exact ih (p.indexBlock s) (s + 1)

/-- After scanning `s, ..., s+n-1` the cursor and the last-block marker are the
last block of the run whose fetch succeeded. -/
theorem scanBlocks_cursor (n : Nat) (p : Parser) (s m : Int)
    (hm1 : s ≤ m) (hm2 : m < s + n) (hok : p.client.blocks m ≠ none)
    (hfail : ∀ k, m < k → k < s + n → p.client.blocks k = none) :
    (scanBlocks p n s).currentBlock = m ∧ (scanBlocks p n s).store.lastBlock = m := by
  obtain ⟨a, ha⟩ : ∃ a : Nat, (a : Int) = m - s := ⟨(m - s).toNat, by omega⟩
  obtain ⟨b, hb⟩ : ∃ b : Nat, n = a + (1 + b) := ⟨n - a - 1, by omega⟩
  have hsa : s + (a : Int) = m := by omega
  subst hb
  rw [scanBlocks_add, scanBlocks_add, hsa]
  have hblocks : (scanBlocks p a s).client.blocks = p.client.blocks := (scanBlocks_frame a p s).2.1
  have hok2 : (scanBlocks p a s).client.blocks m ≠ none := by rw [hblocks]; exact hok
  have hcur : (scanBlocks (scanBlocks p a s) 1 m) = (scanBlocks p a s).indexBlock m := rfl
  rw [hcur]
  have hc := indexBlock_cursor_ok (scanBlocks p a s) m hok2
  have hrest : ∀ k, m + ((1 : Nat) : Int) ≤ k → k < m + ((1 : Nat) : Int) + b →
      ((scanBlocks p a s).indexBlock m).client.blocks k = none := by
    intro k hk1 hk2
    rw [(indexBlock_frame _ m).2.1, hblocks]
    exact hfail k (by push_cast at hk1; omega) (by push_cast at hk2 ⊢; omega)
  have hf := scanBlocks_all_fail b ((scanBlocks p a s).indexBlock m) (m + ((1 : Nat) : Int)) hrest
  exact ⟨by rw [hf.1, hc.1], by rw [hf.2, hc.2]⟩

/-! ## The range loop: termination and its result -/

/-- On a range that ends below the largest `int64` the loop terminates, and its
result is the loop body applied to the blocks of the range in ascending order. -/
theorem index_eq_scanBlocks (n : Nat) :
    ∀ (fuel : Nat) (p : Parser) (s e : Int), rangeLength s e = n → minInt64 ≤ s →
      e < maxInt64 → n + 1 ≤ fuel →
      indexSubbedTransactionsForBlockRange fuel p s e = some (scanBlocks p n s) := by
  induction n with
  | zero =>
    intro fuel p s e hn _ _ hfuel
    obtain ⟨f, rfl⟩ : ∃ f, fuel = f + 1 := ⟨fuel - 1, by omega⟩
    have hlt : ¬ s ≤ e := by unfold rangeLength at hn; omega
    simp [indexSubbedTransactionsForBlockRange, hlt, scanBlocks]
  | succ k ih =>
    intro fuel p s e hn hs he hfuel
    obtain ⟨f, rfl⟩ : ∃ f, fuel = f + 1 := ⟨fuel - 1, by omega⟩
    have hle : s ≤ e := by unfold rangeLength at hn; omega
    have hw : wrapInt64 (s + 1) = s + 1 := wrapInt64_succ hs (by omega)
    have hn2 : rangeLength (s + 1) e = k := by unfold rangeLength at hn ⊢; omega
    have := ih f (p.indexBlock s) (s + 1) e hn2 (by omega) he (by omega)
    simp [indexSubbedTransactionsForBlockRange, hle, hw, this, scanBlocks]

theorem wrapInt64_isInt64 (x : Int) : isInt64 (wrapInt64 x) := by
  unfold isInt64 wrapInt64 minInt64 maxInt64
  have h1 := Int.emod_nonneg (x + 2 ^ 63) (by norm_num : (2 : Int) ^ 64 ≠ 0)
  have h2 := Int.emod_lt_of_pos (x + 2 ^ 63) (by norm_num : (0 : Int) < 2 ^ 64)
  omega

/-- A scan whose end block is the largest `int64` never leaves the loop: the
increment after the last block wraps to the smallest `int64` and the loop
condition holds again. -/
theorem index_maxInt64_diverges (fuel : Nat) :
    ∀ (p : Parser) (s : Int), isInt64 s →
      indexSubbedTransactionsForBlockRange fuel p s maxInt64 = none := by
  induction fuel with
  | zero => intro p s _; rfl
  | succ f ih =>
    intro p s hs
    have hle : s ≤ maxInt64 := hs.2
    simp only [indexSubbedTransactionsForBlockRange, hle, if_true]
    exact ih _ _ (wrapInt64_isInt64 _)

/-! ## Subscribe, Unsubscribe and GetTransactions -/

theorem subscribe_present (p : Parser) (a : String) (h : p.subscriptions.Check a = true) :
    p.subscribe a = { ok := false, backfillSpawned := false, parser := p } := by
  simp [subscribe, h]

theorem subscribe_absent (p : Parser) (a : String) (h : p.subscriptions.Check a = false) :
    p.subscribe a =
      { ok := true, backfillSpawned := true,
        parser := { p with subscriptions := (p.subscriptions.Add a).2 } } := by
  simp [subscribe, h]

theorem subscribe_frame (p : Parser) (a : String) :
    (p.subscribe a).parser.store = p.store ∧
    (p.subscribe a).parser.currentBlock = p.currentBlock ∧
    (p.subscribe a).parser.client = p.client := by
  cases h : p.subscriptions.Check a
  · rw [subscribe_absent p a h]; simp
  · rw [subscribe_present p a h]; simp

theorem subscribe_check (p : Parser) (a b : String) :
    (p.subscribe a).parser.subscriptions.Check b =
      (decide (b = a) || p.subscriptions.Check b) := by
  cases h : p.subscriptions.Check a
  · rw [subscribe_absent p a h]; simp [sub_check_add]
  · rw [subscribe_present p a h]
    by_cases hb : b = a
    · simp [hb, h]
    · simp [hb]

theorem getTransactions_subscribed (p : Parser) (a : String)
    (h : p.subscriptions.Check a = true) :
    p.GetTransactions a = collectMap (p.store.GetTransactions a) := by
  simp [GetTransactions, getTransactions, h]

/-- C2: for every parser state (any registry, archive contents and cursor) and
every address that is not in the registry, `GetTransactions` returns the empty
sequence, whatever the store holds under that address. -/
theorem getTransactions_unsubscribed_empty (p : Parser) (a : String)
    (h : p.subscriptions.Check a = false) :
    p.GetTransactions a = some [] := by
  simp [GetTransactions, getTransactions, h]

/-- Witness for C2: the store holds one transaction under `0x1234`, the address
is not subscribed, and `GetTransactions` returns the empty sequence. -/
theorem getTransactions_unsubscribed_empty_witness :
    orphanParser.store.GetTransactions "0x1234" = [testTx1] ∧
    orphanParser.subscriptions.Check "0x1234" = false ∧
    orphanParser.GetTransactions "0x1234" = some [] :=
  ⟨by decide, by decide,
    getTransactions_unsubscribed_empty orphanParser "0x1234" (by decide)⟩

/-- C8: `Subscribe(a)` returns false exactly when `a` is already in the
registry; after a `Subscribe(a)` that returned true the address is in the
registry, and a `Subscribe(a)` on any state with that registry (right after
the first call, or after indexing steps, which leave the registry alone)
returns false, spawns no backfill and leaves the whole parser state unchanged:
registry, store and cursor. -/
theorem subscribe_twice (p : Parser) (a : String) :
    ((p.Subscribe a).ok = false ↔ p.subscriptions.Check a = true) ∧
    ((p.Subscribe a).ok = true →
      (p.Subscribe a).parser.subscriptions.Check a = true ∧
      ∀ q : Parser, q.subscriptions = (p.Subscribe a).parser.subscriptions →
        (q.Subscribe a).ok = false ∧ (q.Subscribe a).backfillSpawned = false ∧
        (q.Subscribe a).parser = q) := by
  unfold Subscribe
  constructor
  · cases h : p.subscriptions.Check a
    · rw [subscribe_absent p a h]; simp
    · rw [subscribe_present p a h]; simp
  · intro _
    have hc : (p.subscribe a).parser.subscriptions.Check a = true := by
      rw [subscribe_check]; simp
    refine ⟨hc, ?_⟩
    intro q hq
    have hq2 : q.subscriptions.Check a = true := by rw [hq]; exact hc
    rw [subscribe_present q a hq2]
    exact ⟨rfl, rfl, rfl⟩

/-- Witness for C8: on the parser of the end-to-end test the first
`Subscribe("0x1234")` returns true and the second one returns false, spawns no
backfill and changes neither the cursor nor the entry of the address. -/
theorem subscribe_twice_witness :
    ((parserWith [] testClient).Subscribe "0x1234").ok = true ∧
    ((((parserWith [] testClient).Subscribe "0x1234").parser.Subscribe "0x1234").ok = false ∧
     (((parserWith [] testClient).Subscribe "0x1234").parser.Subscribe "0x1234").backfillSpawned
        = false ∧
     (((parserWith [] testClient).Subscribe "0x1234").parser.Subscribe "0x1234").parser
        = ((parserWith [] testClient).Subscribe "0x1234").parser) :=
  ⟨by decide,
    ((subscribe_twice (parserWith [] testClient) "0x1234").2 (by decide)).2
      ((parserWith [] testClient).Subscribe "0x1234").parser rfl⟩

/-- C9: for a subscribed address `Unsubscribe` returns true and an immediately
following `GetTransactions` returns the empty sequence, whatever the store
holds; for an address that is not subscribed `Unsubscribe` returns false and
leaves the parser state unchanged. -/
theorem unsubscribe_hides_history (p : Parser) (a : String) :
    (p.subscriptions.Check a = true →
      (p.Unsubscribe a).1 = true ∧ (p.Unsubscribe a).2.GetTransactions a = some []) ∧
    (p.subscriptions.Check a = false → p.Unsubscribe a = (false, p)) := by
  unfold Unsubscribe unsubscribe
  constructor
  · intro h
    refine ⟨by rw [sub_remove_fst, h], ?_⟩
    apply getTransactions_unsubscribed_empty
    show (p.subscriptions.Remove a).2.Check a = false
    rw [sub_check_remove]; simp
  · intro h
    rw [sub_remove_absent p.subscriptions a h]

/-- Witness for C9: the subscribed address `0x1234` has one stored transaction;
`Unsubscribe` returns true and `GetTransactions` is empty afterwards; a second
`Unsubscribe` returns false. -/
theorem unsubscribe_hides_history_witness :
    watchingParser.store.GetTransactions "0x1234" = [testTx1] ∧
    ((watchingParser.Unsubscribe "0x1234").1 = true ∧
      (watchingParser.Unsubscribe "0x1234").2.GetTransactions "0x1234" = some []) ∧
    (orphanParser.Unsubscribe "0x1234" = (false, orphanParser)) :=
  ⟨by decide,
    (unsubscribe_hides_history watchingParser "0x1234").1 (by decide),
    (unsubscribe_hides_history orphanParser "0x1234").2 (by decide)⟩

/-- C10: `Unsubscribe(a)` leaves the store (the sequence of every address `b`
and the last-block marker) and the cursor as they were; and when `a` was
subscribed, `GetTransactions(a)` read right after `Unsubscribe(a)` followed by
`Subscribe(a)`, before the spawned backfill runs, is what it was before the
`Unsubscribe`. -/
theorem unsubscribe_keeps_history (p : Parser) (a b : String) :
    (p.Unsubscribe a).2.store.GetTransactions b = p.store.GetTransactions b ∧
    (p.Unsubscribe a).2.store.GetLastBlock = p.store.GetLastBlock ∧
    (p.Unsubscribe a).2.GetCurrentBlock = p.GetCurrentBlock ∧
    (p.subscriptions.Check a = true →
      ((p.Unsubscribe a).2.Subscribe a).parser.GetTransactions a = p.GetTransactions a) := by
  refine ⟨rfl, rfl, rfl, ?_⟩
  intro h
  have hc : ((p.Unsubscribe a).2.Subscribe a).parser.subscriptions.Check a = true := by
    unfold Subscribe; rw [subscribe_check]; simp
  rw [getTransactions_subscribed _ a hc, getTransactions_subscribed p a h]
  have hs : ((p.Unsubscribe a).2.Subscribe a).parser.store = p.store := by
    unfold Subscribe; rw [(subscribe_frame _ a).1]; rfl
  rw [hs]

/-- Witness for C10: with `0x1234` subscribed and one stored transaction, the
records read after `Unsubscribe` then `Subscribe` are the one record read
before. -/
theorem unsubscribe_keeps_history_witness :
    watchingParser.GetTransactions "0x1234" =
      some [{ From := "0x1234", To := "0x5678", Value := "100", Hash := "0xabcd", Block := 1 }] ∧
    ((watchingParser.Unsubscribe "0x1234").2.Subscribe "0x1234").parser.GetTransactions "0x1234"
      = watchingParser.GetTransactions "0x1234" :=
  ⟨by decide, (unsubscribe_keeps_history watchingParser "0x1234" "0x1234").2.2.2 (by decide)⟩

/-! ## Archive membership -/

theorem fanOut_eq_replicate (x : String) (tx : eth.Txn) :
    fanOut x tx =
      List.replicate ((if tx.From = x then 1 else 0) + (if tx.To = x then 1 else 0)) tx := by
  unfold fanOut
  by_cases h1 : tx.From = x <;> by_cases h2 : tx.To = x <;> simp [h1, h2, List.replicate]

theorem fanOut_ne_nil_iff (x : String) (tx : eth.Txn) :
    fanOut x tx ≠ [] ↔ (x = tx.From ∨ x = tx.To) := by
  unfold fanOut
  by_cases h1 : x = tx.From
  · simp [← h1]
  · by_cases h2 : x = tx.To
    · simp [← h2]
    · have h1' : ¬ tx.From = x := fun h => h1 h.symm
      have h2' : ¬ tx.To = x := fun h => h2 h.symm
      simp [h1, h2, h1', h2']

/-- C4, counterexample: with only `0x1234` subscribed, processing the transfer
`0x1234 -> 0x5678` appends the transaction to the entry of `0x5678`, an address
that is not in the registry; so it is false that the entry of `x` receives the
transaction if and only if `x` is subscribed and is its sender or recipient. -/
theorem processTransaction_membership_counterexample :
    ¬ (∀ (p : Parser) (tx : eth.Txn) (x : String),
        (∃ k, 0 < k ∧ (p.processTransaction tx).store.GetTransactions x =
            p.store.GetTransactions x ++ List.replicate k tx) ↔
          (p.subscriptions.Check x = true ∧ (x = tx.From ∨ x = tx.To))) := by
  intro h
  have h1 := (h (parserWith ["0x1234"] testClient) testTx1 "0x5678").mp ⟨1, by decide, by decide⟩
  exact absurd h1.1 (by decide)

/-- C4, amended: processing `tx` appends to the entry of every address `x`
exactly the copies of `tx` that `retained` gives; the entry receives `tx` (once
per role of `x` in it) if and only if the sender or the recipient of `tx` is in
the registry at that moment and `x` is the sender or the recipient, and is
unchanged otherwise. The address `x` itself need not be subscribed. -/
theorem processTransaction_membership (p : Parser) (tx : eth.Txn) (x : String) :
    (p.processTransaction tx).store.GetTransactions x =
      p.store.GetTransactions x ++ retained p.subscriptions x tx ∧
    ((∃ k, 0 < k ∧ (p.processTransaction tx).store.GetTransactions x =
        p.store.GetTransactions x ++ List.replicate k tx) ↔
      ((p.subscriptions.Check tx.From = true ∨ p.subscriptions.Check tx.To = true) ∧
        (x = tx.From ∨ x = tx.To))) ∧
    (¬ ((p.subscriptions.Check tx.From = true ∨ p.subscriptions.Check tx.To = true) ∧
        (x = tx.From ∨ x = tx.To)) →
      (p.processTransaction tx).store.GetTransactions x = p.store.GetTransactions x) := by
  have hget := processTransaction_get p tx x
  have hret : retained p.subscriptions x tx ≠ [] ↔
      ((p.subscriptions.Check tx.From = true ∨ p.subscriptions.Check tx.To = true) ∧
        (x = tx.From ∨ x = tx.To)) := by
    unfold retained
    by_cases hg : (p.subscriptions.Check tx.From || p.subscriptions.Check tx.To) = true
    · rw [if_pos hg, fanOut_ne_nil_iff]
      simp only [Bool.or_eq_true] at hg
      simp [hg]
    · rw [if_neg hg]
      simp only [Bool.or_eq_true] at hg
      simp [hg]
  refine ⟨hget, ?_, ?_⟩
  · rw [hget]
    constructor
    · rintro ⟨k, hk, he⟩
      apply hret.mp
      intro hnil
      rw [hnil, List.append_nil] at he
      have := congrArg List.length he
      simp at this
      omega
    · intro hc
      have hne := hret.mpr hc
      have hg : (p.subscriptions.Check tx.From || p.subscriptions.Check tx.To) = true := by
        simp only [Bool.or_eq_true]; exact hc.1
      have hr : retained p.subscriptions x tx = fanOut x tx := by
        unfold retained; rw [if_pos hg]
      rw [hr, fanOut_eq_replicate] at hne ⊢
      refine ⟨_, ?_, rfl⟩
      by_contra hz
      have hz0 : ((if tx.From = x then 1 else 0) + (if tx.To = x then 1 else 0)) = 0 := by omega
      rw [hz0] at hne
      exact hne rfl
  · intro hn
    have : retained p.subscriptions x tx = [] := by
      by_contra hne
      exact hn (hret.mp hne)
    rw [hget, this, List.append_nil]

/-- Witness for C4: the sender `0x1234` is subscribed, so the entry of the
recipient `0x5678` receives the transaction although `0x5678` is not
subscribed; the entry of the unrelated address `0x9999` is unchanged. -/
theorem processTransaction_membership_witness :
    (parserWith ["0x1234"] testClient).subscriptions.Check "0x5678" = false ∧
    ((parserWith ["0x1234"] testClient).processTransaction testTx1).store.GetTransactions "0x5678"
      = [testTx1] ∧
    ((parserWith ["0x1234"] testClient).processTransaction testTx1).store.GetTransactions "0x9999"
      = (parserWith ["0x1234"] testClient).store.GetTransactions "0x9999" :=
  ⟨by decide, by decide,
    (processTransaction_membership (parserWith ["0x1234"] testClient) testTx1 "0x9999").2.2
      (by decide)⟩

/-! ## Start, backfill and the polling tick as scans -/

theorem lookbackStart_eq (L : Int) (h0 : 0 ≤ L) (h1 : L ≤ maxInt64) :
    (if wrapInt64 (L - LOOKBACK_FROM_LATEST) < 0 then 0
      else wrapInt64 (L - LOOKBACK_FROM_LATEST)) = lookbackStart L := by
  have hw : wrapInt64 (L - LOOKBACK_FROM_LATEST) = L - LOOKBACK_FROM_LATEST := by
    apply wrapInt64_eq_self
    unfold isInt64 minInt64 maxInt64 LOOKBACK_FROM_LATEST at *
    omega
  rw [hw]
  unfold lookbackStart
  split <;> omega

theorem lookbackStart_bounds (L : Int) (h0 : 0 ≤ L) :
    0 ≤ lookbackStart L ∧ lookbackStart L ≤ L ∧ L - 20 ≤ lookbackStart L ∧
    rangeLength (lookbackStart L) L ≤ 21 ∧ 0 < rangeLength (lookbackStart L) L ∧
    lookbackStart L + (rangeLength (lookbackStart L) L : Int) = L + 1 := by
  unfold lookbackStart rangeLength LOOKBACK_FROM_LATEST
  omega

theorem start_eq_scanBlocks (fuel : Nat) (p : Parser) (L : Int)
    (hL : p.client.latestBlock = some L) (h0 : 0 ≤ L) (h1 : L < maxInt64) (hf : 22 ≤ fuel) :
    Start fuel p =
      StartResult.indexed
        (scanBlocks p (rangeLength (lookbackStart L) L) (lookbackStart L)) := by
  have hb := lookbackStart_bounds L h0
  have hs : minInt64 ≤ lookbackStart L := by unfold minInt64; omega
  have hr := index_eq_scanBlocks _ fuel p (lookbackStart L) L rfl hs h1 (by omega)
  unfold Start Client.GetLatestBlock
  simp only [hL]
  rw [lookbackStart_eq L h0 (by omega), hr]

theorem backfill_eq_scanBlocks (fuel : Nat) (p : Parser)
    (h0 : 0 ≤ p.currentBlock) (h1 : p.currentBlock < maxInt64) (hf : 22 ≤ fuel) :
    backfill fuel p =
      some (scanBlocks p (rangeLength (lookbackStart p.currentBlock) p.currentBlock)
        (lookbackStart p.currentBlock)) := by
  have hb := lookbackStart_bounds p.currentBlock h0
  have hs : minInt64 ≤ lookbackStart p.currentBlock := by unfold minInt64; omega
  have hr := index_eq_scanBlocks _ fuel p (lookbackStart p.currentBlock) p.currentBlock rfl hs h1
    (by omega)
  unfold backfill
  simp only []
  rw [lookbackStart_eq p.currentBlock h0 (by omega), hr]

/-- Scanning the look-back window of `L` with every fetch successful leaves the
cursor and the last-block marker at `L`. -/
theorem scan_window_cursor (p : Parser) (L : Int) (h0 : 0 ≤ L)
    (hok : ∀ n, p.client.blocks n ≠ none) :
    (scanBlocks p (rangeLength (lookbackStart L) L) (lookbackStart L)).currentBlock = L ∧
    (scanBlocks p (rangeLength (lookbackStart L) L) (lookbackStart L)).store.lastBlock = L := by
  have hb := lookbackStart_bounds L h0
  exact scanBlocks_cursor _ p (lookbackStart L) L hb.2.1 (by omega) (hok L)
    (fun k hk1 hk2 => by omega)

/-! ## Re-indexing a range -/

/-- C3, counterexample: with `0x1234` subscribed and the transfer
`0x1234 -> 0x5678` in block 0, indexing the range `[0, 0]` once leaves one entry
under `0x1234` and indexing it a second time leaves two; so re-indexing is not
idempotent. -/
theorem reindex_counterexample :
    ¬ (∀ (p p1 p2 : Parser) (fuel : Nat) (startBlock endBlock : Int),
        (∀ n, p.client.blocks n ≠ none) →
        indexSubbedTransactionsForBlockRange fuel p startBlock endBlock = some p1 →
        indexSubbedTransactionsForBlockRange fuel p1 startBlock endBlock = some p2 →
        ∀ x, p2.store.GetTransactions x = p1.store.GetTransactions x) := by
  intro h
  have h1 := h (parserWith ["0x1234"] (constClient 0 [testTx1]))
    (scanBlocks (parserWith ["0x1234"] (constClient 0 [testTx1])) 1 0)
    (scanBlocks (scanBlocks (parserWith ["0x1234"] (constClient 0 [testTx1])) 1 0) 1 0)
    2 0 0 (by intro n; simp [parserWith, New, constClient]) rfl rfl "0x1234"
  exact absurd h1 (by decide)

/-- C3, amended: on a range that ends below the largest `int64`, with the
registry unchanged, a scan appends to the entry of each address `x` the
retained transactions of the range (`rangeDelta`), and a second scan of the
same range appends the same transactions once more; the sequence of `x` after
two scans equals the one after a single scan exactly when the range retains
nothing for `x`. -/
theorem reindex_appends_again (fuel : Nat) (p : Parser) (startBlock endBlock : Int)
    (hs : minInt64 ≤ startBlock) (he : endBlock < maxInt64)
    (hf : rangeLength startBlock endBlock + 1 ≤ fuel) :
    ∃ p1 p2,
      indexSubbedTransactionsForBlockRange fuel p startBlock endBlock = some p1 ∧
      indexSubbedTransactionsForBlockRange fuel p1 startBlock endBlock = some p2 ∧
      ∀ x,
        p1.store.GetTransactions x = p.store.GetTransactions x ++
          rangeDelta p.client.blocks p.subscriptions x
            (rangeLength startBlock endBlock) startBlock ∧
        p2.store.GetTransactions x = p1.store.GetTransactions x ++
          rangeDelta p.client.blocks p.subscriptions x
            (rangeLength startBlock endBlock) startBlock ∧
        (p2.store.GetTransactions x = p1.store.GetTransactions x ↔
          rangeDelta p.client.blocks p.subscriptions x
            (rangeLength startBlock endBlock) startBlock = []) := by
  refine ⟨scanBlocks p (rangeLength startBlock endBlock) startBlock,
    scanBlocks (scanBlocks p (rangeLength startBlock endBlock) startBlock)
      (rangeLength startBlock endBlock) startBlock,
    index_eq_scanBlocks _ fuel p startBlock endBlock rfl hs he hf,
    index_eq_scanBlocks _ fuel _ startBlock endBlock rfl hs he hf, ?_⟩
  intro x
  have hfr := scanBlocks_frame (rangeLength startBlock endBlock) p startBlock
  have h1 := scanBlocks_get (rangeLength startBlock endBlock) p startBlock x
  have h2 := scanBlocks_get (rangeLength startBlock endBlock)
    (scanBlocks p (rangeLength startBlock endBlock) startBlock) startBlock x
  rw [hfr.1, hfr.2.1] at h2
  refine ⟨h1, h2, ?_⟩
  rw [h2]
  constructor
  · intro h
    exact List.append_right_eq_self.mp h
  · intro h
    rw [h, List.append_nil]

/-- Witness for C3: on the parser subscribed to `0x1234`, over a reader that
serves the transfer `0x1234 -> 0x5678` in every block, two scans of `[0, 0]`
terminate and the second one appends the transfer again. -/
theorem reindex_appends_again_witness :
    ∃ p1 p2,
      indexSubbedTransactionsForBlockRange 2
        (parserWith ["0x1234"] (constClient 0 [testTx1])) 0 0 = some p1 ∧
      indexSubbedTransactionsForBlockRange 2 p1 0 0 = some p2 ∧
      p1.store.GetTransactions "0x1234" = [testTx1] ∧
      p2.store.GetTransactions "0x1234" = [testTx1, testTx1] := by
  obtain ⟨p1, p2, h1, h2, h3⟩ :=
    reindex_appends_again 2 (parserWith ["0x1234"] (constClient 0 [testTx1])) 0 0
      (by decide) (by decide) (by decide)
  refine ⟨p1, p2, h1, h2, ?_, ?_⟩
  · rw [(h3 "0x1234").1]; decide
  · rw [(h3 "0x1234").2.1, (h3 "0x1234").1]; decide

/-! ## The cursor after a range scan -/

/-- C6, counterexample: a reader whose fetch of block 1 fails; the scan of
`[1, 1]` terminates with the cursor and the last-block marker still at 0, not
at the end of the range. -/
theorem cursor_after_failed_fetch_counterexample :
    ¬ (∀ (p q : Parser) (fuel : Nat) (startBlock endBlock : Int), startBlock ≤ endBlock →
        indexSubbedTransactionsForBlockRange fuel p startBlock endBlock = some q →
        q.GetCurrentBlock = endBlock ∧ q.store.GetLastBlock = endBlock) := by
  intro h
  have h1 := h (parserWith [] (failingClient 1)) (scanBlocks (parserWith [] (failingClient 1)) 1 1)
    2 1 1 (by decide) rfl
  exact absurd h1.1 (by decide)

/-- C6, amended: on a range `start <= end` that ends below the largest `int64`
the scan terminates; the cursor and the last-block marker are then the last
block of the range whose fetch succeeded (so they equal `end` when the fetch of
`end` succeeds), and they keep their previous values when every fetch of the
range fails: the cursor is set only after a block whose fetch succeeded. -/
theorem cursor_after_range (fuel : Nat) (p : Parser) (startBlock endBlock : Int)
    (hs : minInt64 ≤ startBlock) (hle : startBlock ≤ endBlock) (he : endBlock < maxInt64)
    (hf : rangeLength startBlock endBlock + 1 ≤ fuel) :
    ∃ q, indexSubbedTransactionsForBlockRange fuel p startBlock endBlock = some q ∧
      (p.client.blocks endBlock ≠ none →
        q.GetCurrentBlock = endBlock ∧ q.store.GetLastBlock = endBlock) ∧
      (∀ m, startBlock ≤ m → m ≤ endBlock → p.client.blocks m ≠ none →
        (∀ k, m < k → k ≤ endBlock → p.client.blocks k = none) →
        q.GetCurrentBlock = m ∧ q.store.GetLastBlock = m) ∧
      ((∀ k, startBlock ≤ k → k ≤ endBlock → p.client.blocks k = none) →
        q.GetCurrentBlock = p.GetCurrentBlock ∧ q.store.GetLastBlock = p.store.GetLastBlock) := by
  refine ⟨scanBlocks p (rangeLength startBlock endBlock) startBlock,
    index_eq_scanBlocks _ fuel p startBlock endBlock rfl hs he hf, ?_, ?_, ?_⟩
  · intro hok
    exact scanBlocks_cursor _ p startBlock endBlock hle (by unfold rangeLength; omega) hok
      (fun k hk1 hk2 => by unfold rangeLength at hk2; omega)
  · intro m hm1 hm2 hok hfail
    exact scanBlocks_cursor _ p startBlock m hm1 (by unfold rangeLength; omega) hok
      (fun k hk1 hk2 => hfail k hk1 (by unfold rangeLength at hk2; omega))
  · intro hfail
    have := scanBlocks_all_fail (rangeLength startBlock endBlock) p startBlock
      (fun k hk1 hk2 => hfail k hk1 (by unfold rangeLength at hk2; omega))
    exact ⟨this.1, by unfold store.InMemStore.GetLastBlock; rw [this.2]⟩

/-- Witness for C6: over a reader whose fetch of block 2 fails the scan of
`[1, 2]` terminates and leaves cursor and marker at 1, the last block fetched
with success. -/
theorem cursor_after_range_witness :
    ∃ q, indexSubbedTransactionsForBlockRange 3 (parserWith [] flakyClient) 1 2 = some q ∧
      q.GetCurrentBlock = 1 ∧ q.store.GetLastBlock = 1 := by
  obtain ⟨q, h1, _, h3, _⟩ :=
    cursor_after_range 3 (parserWith [] flakyClient) 1 2 (by decide) (by decide)
      (by decide) (by decide)
  refine ⟨q, h1, h3 1 (by decide) (by decide) (by decide) ?_⟩
  intro k hk1 hk2
  have hk : k = 2 := by omega
  subst hk
  rfl

/-! ## What a scan retains under the empty and under a one-address registry -/

theorem blockDelta_new (x : String) (txs : List eth.Txn) :
    blockDelta sub.SubStore.New x txs = [] := by
  induction txs with
  | nil => rfl
  | cons tx rest ih => simp [blockDelta, retained, sub_check_new, ih]

theorem rangeDelta_new (blocks : Int → Option (List eth.Txn)) (x : String) (n : Nat) (s : Int) :
    rangeDelta blocks sub.SubStore.New x n s = [] := by
  induction n generalizing s with
  | zero => rfl
  | succ k ih => simp [rangeDelta, blockDelta_new, ih]

theorem retained_only (reg : sub.SubStore) (a : String)
    (h : ∀ k, reg.Check k = decide (k = a)) (tx : eth.Txn) :
    retained reg a tx = fanOut a tx := by
  unfold retained
  by_cases hg : (reg.Check tx.From || reg.Check tx.To) = true
  · rw [if_pos hg]
  · rw [if_neg hg]
    rw [h, h] at hg
    simp only [Bool.or_eq_true, decide_eq_true_eq, not_or] at hg
    simp [fanOut, hg.1, hg.2]

theorem blockDelta_only (reg : sub.SubStore) (a : String)
    (h : ∀ k, reg.Check k = decide (k = a)) (txs : List eth.Txn) :
    blockDelta reg a txs = emitFor a txs := by
  induction txs with
  | nil => rfl
  | cons tx rest ih => simp [blockDelta, emitFor, retained_only reg a h, ih]

theorem rangeDelta_only (blocks : Int → Option (List eth.Txn)) (reg : sub.SubStore) (a : String)
    (h : ∀ k, reg.Check k = decide (k = a)) (n : Nat) (s : Int) :
    rangeDelta blocks reg a n s = walkBlocks a blocks (blockNumbers n s) := by
  induction n generalizing s with
  | zero => rfl
  | succ k ih => simp [rangeDelta, walkBlocks, blockNumbers, blockDelta_only reg a h, ih]

theorem store_new_get (x : String) :
    store.InMemStore.NewInMemStore.GetTransactions x = [] := rfl

/-! ## Initial indexing -/

theorem testClient_blocks_ok (n : Int) : testClient.blocks n ≠ none := by
  unfold testClient
  simp only []
  split_ifs <;> simp

/-- The initialization clamp for every latest block below the largest `int64`:
with every fetch successful the initial indexing of `Start` terminates,
requests exactly the blocks `0, ..., L` when `L < 20` and exactly
`L-20, ..., L` when `20 <= L`, in ascending order, none of them negative, and
leaves the cursor at `L`. -/
theorem start_requests_window (fuel : Nat) (p : Parser) (L : Int)
    (hL : p.client.latestBlock = some L) (hok : ∀ n, p.client.blocks n ≠ none)
    (h0 : 0 ≤ L) (h1 : L < maxInt64) (hf : 22 ≤ fuel) :
    ∃ q, Start fuel p = StartResult.indexed q ∧ q.GetCurrentBlock = L ∧
      (L < 20 → q.client.requested = p.client.requested ++ blockNumbers (L + 1).toNat 0) ∧
      (20 ≤ L → q.client.requested = p.client.requested ++ blockNumbers 21 (L - 20)) ∧
      (∀ n ∈ blockNumbers (rangeLength (lookbackStart L) L) (lookbackStart L), 0 ≤ n) := by
  refine ⟨_, start_eq_scanBlocks fuel p L hL h0 h1 hf, (scan_window_cursor p L h0 hok).1, ?_, ?_, ?_⟩
  · intro hlt
    have e1 : lookbackStart L = 0 := by unfold lookbackStart LOOKBACK_FROM_LATEST; omega
    have e2 : rangeLength 0 L = (L + 1).toNat := by unfold rangeLength; simp
    rw [(scanBlocks_frame _ p _).2.2.2, e1, e2]
  · intro hge
    have e1 : lookbackStart L = L - 20 := by unfold lookbackStart LOOKBACK_FROM_LATEST; omega
    have e2 : rangeLength (L - 20) L = 21 := by unfold rangeLength; omega
    rw [(scanBlocks_frame _ p _).2.2.2, e1, e2]
  · intro n hn
    rw [mem_blockNumbers] at hn
    have := (lookbackStart_bounds L h0).1
    omega

/-- The initialization clamp on the reader of the end-to-end test (latest block
2): the initial indexing requests the blocks 0, 1, 2 and leaves the cursor at 2. -/
theorem start_requests_window_witness :
    ∃ q, Start 22 (parserWith [] testClient) = StartResult.indexed q ∧ q.GetCurrentBlock = 2 ∧
      q.client.requested = [0, 1, 2] := by
  obtain ⟨q, h1, h2, h3, _, _⟩ :=
    start_requests_window 22 (parserWith [] testClient) 2 rfl
      testClient_blocks_ok
      (by decide) (by decide) (by decide)
  exact ⟨q, h1, h2, by rw [h3 (by decide)]; decide⟩

set_option maxRecDepth 100000 in
/-- C7, at the failing input: when the reader reports the largest `int64` as
the latest block (every fetch successful), the initial indexing of `Start`
does not end for any amount of fuel: after block `2^63 - 1` the loop counter
wraps to `-2^63` and the scan goes on over negative block numbers. In the
sequential model the first 21 iterations request `2^63 - 21, ..., 2^63 - 1` and
the 22nd requests the negative block `-2^63` and sets the cursor to it. -/
theorem start_at_maxInt64_diverges :
    (¬ ∃ (fuel : Nat) (q : Parser),
      Start fuel (parserWith [] (constClient maxInt64 [])) = StartResult.indexed q) ∧
    boot (parserWith [] (constClient maxInt64 [])) = some bootAtMax ∧
    (run (List.replicate 22 Event.iterate) bootAtMax).parser.client.requested =
      blockNumbers 21 (maxInt64 - 20) ++ [minInt64] ∧
    (run (List.replicate 22 Event.iterate) bootAtMax).parser.GetCurrentBlock = minInt64 := by
  refine ⟨?_, rfl, by decide, by decide⟩
  rintro ⟨fuel, q, h⟩
  have hd := index_maxInt64_diverges fuel (parserWith [] (constClient maxInt64 []))
    (lookbackStart maxInt64) (by decide)
  have hs : Start fuel (parserWith [] (constClient maxInt64 [])) = StartResult.outOfFuel := by
    unfold Start Client.GetLatestBlock
    have hl : (parserWith [] (constClient maxInt64 [])).client.latestBlock = some maxInt64 := rfl
    simp only [hl]
    rw [lookbackStart_eq maxInt64 (by decide) (le_refl _), hd]
  rw [hs] at h
  cases h

/-! ## The end-to-end scenario -/

/-- The end-to-end scenario for every latest block below the largest `int64`:
on a fresh parser over a reader whose fetches all succeed, the initial
indexing, `Subscribe(a)` and the spawned backfill all end, and
`GetTransactions(a)` is then the wire projection of the walk over the blocks
`max(0, L-20) .. L` in ascending order, each transaction in block order, once
when `a` is its sender and once more when `a` is its recipient. -/
theorem endToEnd_history (fuel : Nat) (c : Client) (L : Int) (a : String)
    (hL : c.latestBlock = some L) (hok : ∀ n, c.blocks n ≠ none)
    (h0 : 0 ≤ L) (h1 : L < maxInt64) (hf : 22 ≤ fuel) :
    endToEndRun fuel c a = some (collectMap (windowHistory a c.blocks L)) := by
  have hstart := start_eq_scanBlocks fuel
    (New sub.SubStore.New c store.InMemStore.NewInMemStore) L hL h0 h1 hf
  generalize hp1 : scanBlocks (New sub.SubStore.New c store.InMemStore.NewInMemStore)
    (rangeLength (lookbackStart L) L) (lookbackStart L) = p1 at hstart
  have hfr := scanBlocks_frame (rangeLength (lookbackStart L) L)
    (New sub.SubStore.New c store.InMemStore.NewInMemStore) (lookbackStart L)
  have hcur := (scan_window_cursor (New sub.SubStore.New c store.InMemStore.NewInMemStore)
    L h0 hok).1
  have hget := scanBlocks_get (rangeLength (lookbackStart L) L)
    (New sub.SubStore.New c store.InMemStore.NewInMemStore) (lookbackStart L) a
  rw [hp1] at hfr hcur hget
  have hreg : p1.subscriptions = sub.SubStore.New := hfr.1
  have hblocks : p1.client.blocks = c.blocks := hfr.2.1
  have hempty : p1.store.GetTransactions a = [] := by
    rw [hget]
    show store.InMemStore.NewInMemStore.GetTransactions a ++
      rangeDelta c.blocks sub.SubStore.New a _ _ = []
    rw [rangeDelta_new, store_new_get]; rfl
  have habs : p1.subscriptions.Check a = false := by rw [hreg]; rfl
  have hsub := subscribe_absent p1 a habs
  have hback := backfill_eq_scanBlocks fuel (p1.subscribe a).parser
    (by rw [(subscribe_frame p1 a).2.1, hcur]; exact h0)
    (by rw [(subscribe_frame p1 a).2.1, hcur]; exact h1) hf
  rw [(subscribe_frame p1 a).2.1, hcur] at hback
  generalize hp2 : scanBlocks (p1.subscribe a).parser
    (rangeLength (lookbackStart L) L) (lookbackStart L) = p2 at hback
  have hfr2 := scanBlocks_frame (rangeLength (lookbackStart L) L) (p1.subscribe a).parser
    (lookbackStart L)
  have hget2 := scanBlocks_get (rangeLength (lookbackStart L) L) (p1.subscribe a).parser
    (lookbackStart L) a
  rw [hp2] at hfr2 hget2
  have honly : ∀ k, (p1.subscribe a).parser.subscriptions.Check k = decide (k = a) := by
    intro k
    rw [subscribe_check, hreg, sub_check_new, Bool.or_false]
  have hin : p2.subscriptions.Check a = true := by rw [hfr2.1, honly]; simp
  have hstore : p2.store.GetTransactions a = windowHistory a c.blocks L := by
    rw [hget2, (subscribe_frame p1 a).1, hempty, (subscribe_frame p1 a).2.2, hblocks,
      rangeDelta_only c.blocks _ a honly]
    rfl
  unfold endToEndRun
  rw [hstart]
  simp only [Subscribe]
  have hsp : (p1.subscribe a).backfillSpawned = true := by rw [hsub]
  rw [if_pos hsp, hback]
  simp only []
  rw [getTransactions_subscribed p2 a hin, hstore]

/-- The end-to-end scenario on the input of `TestParserEndToEnd`: exactly the
two expected records, in block order. -/
theorem endToEnd_history_witness :
    endToEndRun 22 testClient "0x1234" =
      some (some [{ From := "0x1234", To := "0x5678", Value := "100", Hash := "0xabcd", Block := 1 },
                  { From := "0x5678", To := "0x1234", Value := "200", Hash := "0xefgh", Block := 2 }]) := by
  rw [endToEnd_history 22 testClient 2 "0x1234" rfl
    testClient_blocks_ok (by decide) (by decide) (by decide)]
  decide

/-- C1, at the failing input: when the reader reports the largest `int64` as
the latest block (blocks as in the end-to-end test, every fetch successful),
the run never gets past the initial indexing, for any amount of fuel; no
transaction list is ever returned for the subscribed address. -/
theorem endToEnd_at_maxInt64_diverges :
    ¬ ∃ (fuel : Nat) (r : Option (List notif.Txn)),
      endToEndRun fuel testClientAtMax "0x1234" = some r := by
  rintro ⟨fuel, r, h⟩
  have hd := index_maxInt64_diverges fuel
    (New sub.SubStore.New testClientAtMax store.InMemStore.NewInMemStore)
    (lookbackStart maxInt64) (by decide)
  have hs : Start fuel (New sub.SubStore.New testClientAtMax store.InMemStore.NewInMemStore)
      = StartResult.outOfFuel := by
    unfold Start Client.GetLatestBlock
    have hl : (New sub.SubStore.New testClientAtMax
      store.InMemStore.NewInMemStore).client.latestBlock = some maxInt64 := rfl
    simp only [hl]
    rw [lookbackStart_eq maxInt64 (by decide) (le_refl _), hd]
  unfold endToEndRun at h
  rw [hs] at h
  cases h

/-! ## The sequential model runs the loop of the source -/

theorem run_iterate_idle (k : Nat) (p : Parser) (n : Nat) :
    run (List.replicate k Event.iterate) { parser := p, scan := none, pendingBackfills := n } =
      { parser := p, scan := none, pendingBackfills := n } := by
  induction k with
  | zero => rfl
  | succ j ih =>
    simp only [List.replicate_succ, run, List.foldl_cons, step]
    exact ih

/-- A call of `indexSubbedTransactionsForBlockRange` that ends within `fuel`
evaluations of the loop condition is `fuel` `iterate` steps of the model. -/
theorem run_iterate_eq_index (fuel : Nat) :
    ∀ (p q : Parser) (blockNumber endBlock : Int) (kind : ScanKind) (n : Nat),
      indexSubbedTransactionsForBlockRange fuel p blockNumber endBlock = some q →
      run (List.replicate fuel Event.iterate)
        { parser := p,
          scan := some { kind := kind, blockNumber := blockNumber, endBlock := endBlock },
          pendingBackfills := n } =
        { parser := q, scan := none, pendingBackfills := n } := by
  induction fuel with
  | zero => intro p q b e k n h; cases h
  | succ f ih =>
    intro p q b e k n h
    by_cases hle : b ≤ e
    · simp only [indexSubbedTransactionsForBlockRange, if_pos hle] at h
      have := ih _ q _ e k n h
      simp only [List.replicate_succ, run, List.foldl_cons, step, if_pos hle]
      exact this
    · simp only [indexSubbedTransactionsForBlockRange, if_neg hle, Option.some.injEq] at h
      subst h
      simp only [List.replicate_succ, run, List.foldl_cons, step, if_neg hle]
      exact run_iterate_idle f p n

/-- The initial indexing of `Start` is `boot` followed by `iterate` steps. -/
theorem start_eq_boot_run (fuel : Nat) (p q : Parser) (h : Start fuel p = StartResult.indexed q) :
    ∃ s0, boot p = some s0 ∧
      run (List.replicate fuel Event.iterate) s0 =
        { parser := q, scan := none, pendingBackfills := 0 } := by
  unfold Start at h
  unfold boot
  cases hL : p.client.GetLatestBlock with
  | none => rw [hL] at h; cases h
  | some L =>
    rw [hL] at h
    simp only [] at h ⊢
    cases hi : indexSubbedTransactionsForBlockRange fuel p
        (if wrapInt64 (L - LOOKBACK_FROM_LATEST) < 0 then 0
          else wrapInt64 (L - LOOKBACK_FROM_LATEST)) L with
    | none => rw [hi] at h; cases h
    | some r =>
      rw [hi] at h
      simp only [StartResult.indexed.injEq] at h
      subst h
      exact ⟨_, rfl, run_iterate_eq_index fuel p r _ L ScanKind.initial 0 hi⟩

/-! ## The cursor in the sequential model -/

theorem indexBlock_cursor_cases (p : Parser) (n : Int) :
    (p.indexBlock n).currentBlock = n ∨ (p.indexBlock n).currentBlock = p.currentBlock := by
  cases h : p.client.blocks n with
  | none => exact Or.inr (indexBlock_cursor_fail p n h).1
  | some txs => exact Or.inl (indexBlock_cursor_ok p n (by rw [h]; simp)).1

theorem clamp_nonneg (x : Int) : 0 ≤ (if x < 0 then 0 else x) := by
  split <;> omega

theorem inv_boot (p : Parser) (s0 : Sys) (hb : boot p = some s0) (hc : p.currentBlock = 0)
    (hl : ∀ L, p.client.latestBlock = some L → L < maxInt64) : s0.inv := by
  unfold boot Client.GetLatestBlock at hb
  cases hL : p.client.latestBlock with
  | none => rw [hL] at hb; cases hb
  | some L =>
    rw [hL] at hb
    simp only [Option.some.injEq] at hb
    subst hb
    refine ⟨hl, by simp [hc], by simp [hc, maxInt64], ?_⟩
    intro sc hsc
    simp only [Option.some.injEq] at hsc
    subst hsc
    refine ⟨clamp_nonneg _, hl L hL, ?_⟩
    intro _
    simp only [hc]
    exact clamp_nonneg _

theorem inv_step (e : Event) (s : Sys) (hi : s.inv) (he : e.belowMax = true) :
    (step e s).inv := by
  obtain ⟨h1, h2, h3, h4⟩ := hi
  cases e with
  | iterate =>
    cases hs : s.scan with
    | none => simp only [step, hs]; exact ⟨h1, h2, h3, h4⟩
    | some sc =>
      obtain ⟨hb0, hbe, hbk⟩ := h4 sc hs
      by_cases hle : sc.blockNumber ≤ sc.endBlock
      · simp only [step, hs, if_pos hle]
        have hw : wrapInt64 (sc.blockNumber + 1) = sc.blockNumber + 1 :=
          wrapInt64_succ (by unfold minInt64; omega) (by omega)
        have hfr := indexBlock_frame s.parser sc.blockNumber
        refine ⟨?_, ?_, ?_, ?_⟩
        · intro L hL
          rw [hfr.2.2.1] at hL
          exact h1 L hL
        · rcases indexBlock_cursor_cases s.parser sc.blockNumber with hc | hc <;> (rw [hc]; omega)
        · rcases indexBlock_cursor_cases s.parser sc.blockNumber with hc | hc <;> (rw [hc]; omega)
        · intro sc2 hsc2
          simp only [Option.some.injEq] at hsc2
          subst hsc2
          simp only [hw]
          refine ⟨by omega, hbe, ?_⟩
          intro hk
          have := hbk hk
          rcases indexBlock_cursor_cases s.parser sc.blockNumber with hc | hc <;> (rw [hc]; omega)
      · simp only [step, hs, if_neg hle]
        exact ⟨h1, h2, h3, fun sc2 hsc2 => by cases hsc2⟩
  | tick =>
    cases hs : s.scan with
    | some sc => simp only [step, hs]; exact ⟨h1, h2, h3, h4⟩
    | none =>
      cases hL : s.parser.client.latestBlock with
      | none => simp only [step, hs, Client.GetLatestBlock, hL]; exact ⟨h1, h2, h3, h4⟩
      | some L =>
        simp only [step, hs, Client.GetLatestBlock, hL]
        refine ⟨h1, h2, h3, ?_⟩
        intro sc hsc
        simp only [Option.some.injEq] at hsc
        subst hsc
        exact ⟨h2, h1 L hL, fun _ => le_refl _⟩
  | startBackfill =>
    cases hs : s.scan with
    | some sc => simp only [step, hs]; exact ⟨h1, h2, h3, h4⟩
    | none =>
      cases hp : s.pendingBackfills with
      | zero => simp only [step, hs, hp]; exact ⟨h1, h2, h3, h4⟩
      | succ k =>
        simp only [step, hs, hp]
        refine ⟨h1, h2, h3, ?_⟩
        intro sc hsc
        simp only [Option.some.injEq] at hsc
        subst hsc
        exact ⟨clamp_nonneg _, h3, fun hk => absurd rfl hk⟩
  | subscribe a =>
    have hf := subscribe_frame s.parser a
    simp only [step, Subscribe]
    refine ⟨?_, ?_, ?_, ?_⟩
    · intro L hL; rw [hf.2.2] at hL; exact h1 L hL
    · rw [hf.2.1]; exact h2
    · rw [hf.2.1]; exact h3
    · intro sc hsc; rw [hf.2.1]; exact h4 sc hsc
  | unsubscribe a => exact ⟨h1, h2, h3, h4⟩
  | getTransactions a => exact ⟨h1, h2, h3, h4⟩
  | reader l b =>
    refine ⟨?_, h2, h3, h4⟩
    intro L hL
    simp only [step] at hL
    subst hL
    simpa [Event.belowMax] using he

theorem inv_run (evs : List Event) (s : Sys) (hi : s.inv)
    (he : ∀ e ∈ evs, e.belowMax = true) :
    (run evs s).inv := by
  induction evs generalizing s with
  | nil => exact hi
  | cons e rest ih =>
    have h1 : e.belowMax = true := he e (List.mem_cons_self _ _)
    have h2 : ∀ x ∈ rest, x.belowMax = true := fun x hx => he x (List.mem_cons_of_mem _ hx)
    exact ih (step e s) (inv_step e s hi h1) h2

theorem step_cursor_le (e : Event) (s : Sys) (hi : s.inv)
    (hn : isBackfillIteration e s = false) :
    s.parser.GetCurrentBlock ≤ (step e s).parser.GetCurrentBlock := by
  obtain ⟨_, _, _, h4⟩ := hi
  unfold GetCurrentBlock getCurrentBlock
  cases e with
  | iterate =>
    cases hs : s.scan with
    | none => simp only [step, hs]; exact le_refl _
    | some sc =>
      by_cases hle : sc.blockNumber ≤ sc.endBlock
      · simp only [step, hs, if_pos hle]
        have hk : sc.kind ≠ ScanKind.backfill := by
          intro hk
          simp [isBackfillIteration, hs, hk] at hn
        have := (h4 sc hs).2.2 hk
        rcases indexBlock_cursor_cases s.parser sc.blockNumber with hc | hc
        · rw [hc]; exact this
        · rw [hc]
      · simp only [step, hs, if_neg hle]; exact le_refl _
  | tick =>
    cases hs : s.scan with
    | some sc => simp only [step, hs]; exact le_refl _
    | none =>
      cases hL : s.parser.client.latestBlock with
      | none => simp only [step, hs, Client.GetLatestBlock, hL]; exact le_refl _
      | some L => simp only [step, hs, Client.GetLatestBlock, hL]; exact le_refl _
  | startBackfill =>
    cases hs : s.scan with
    | some sc => simp only [step, hs]; exact le_refl _
    | none =>
      cases hp : s.pendingBackfills with
      | zero => simp only [step, hs, hp]; exact le_refl _
      | succ k => simp only [step, hs, hp]; exact le_refl _
  | subscribe a =>
    simp only [step, Subscribe]
    rw [(subscribe_frame s.parser a).2.1]
  | unsubscribe a => exact le_refl _
  | getTransactions a => exact le_refl _
  | reader l b => exact le_refl _

/-- Initial state of the end-to-end test in the sequential model: `Start` has
fetched the latest block 2 and is about to scan `[0, 2]`. -/
theorem boot_testClient :
    boot (parserWith [] testClient) =
      some { parser := parserWith [] testClient,
             scan := some { kind := ScanKind.initial, blockNumber := 0, endBlock := 2 },
             pendingBackfills := 0 } := rfl

/-! ## The wire projection of a list -/

theorem collectMap_nil : collectMap [] = some [] := rfl

theorem collectMap_cons (t : eth.Txn) (ts : List eth.Txn) :
    collectMap (t :: ts) =
      (intoNotifTxn t).bind (fun r => (collectMap ts).map (fun rs => r :: rs)) := by
  unfold collectMap
  rw [List.mapM_cons]
  cases intoNotifTxn t with
  | none => rfl
  | some r =>
    cases List.mapM intoNotifTxn ts with
    | none => rfl
    | some rs => rfl

/-- `Int64` of a non-nil `big.Int` is the two's-complement truncation of its
value to 64 bits. -/
theorem bigIntInt64_some (b : Int) : bigIntInt64 (some b) = some (wrapInt64 b) := by
  unfold bigIntInt64 wrapInt64
  simp only [Option.some.injEq]
  have hp63 : (2 : Int) ^ 63 = 9223372036854775808 := by norm_num
  have hp64 : (2 : Int) ^ 64 = 18446744073709551616 := by norm_num
  have hn64 : (2 : Nat) ^ 64 = 18446744073709551616 := by norm_num
  rw [hp63, hp64, hn64]
  rcases Int.natAbs_eq b with h | h
  · have hb : ¬ b < 0 := by omega
    rw [if_neg hb]
    generalize b.natAbs = n at h
    subst h
    push_cast
    omega
  · by_cases hz : b = 0
    · subst hz; simp
    · have hb : b < 0 := by omega
      rw [if_pos hb]
      generalize b.natAbs = n at h
      subst h
      push_cast
      omega

theorem bigIntInt64_inRange (b : Int) (h : isInt64 b) : bigIntInt64 (some b) = some b := by
  rw [bigIntInt64_some, wrapInt64_eq_self h]

theorem intoNotifTxn_some (t : eth.Txn) (b : Int) (h : t.BlockNumber = some b) :
    intoNotifTxn t =
      some { From := t.From, To := t.To, Value := bigIntString t.Value, Hash := t.Hash,
             Block := wrapInt64 b } := by
  unfold intoNotifTxn
  rw [h, bigIntInt64_some]

theorem intoNotifTxn_nil (t : eth.Txn) (h : t.BlockNumber = none) : intoNotifTxn t = none := by
  unfold intoNotifTxn
  rw [h]
  rfl

/-! ## Self-transfer, the filter gate and the archive -/

/-- C11: for a subscribed address `a` whose store entry is empty and a
transaction `tx` with `tx.From = tx.To = a`, processing `tx` once leaves the
entry of `a` equal to `[tx, tx]`, and `GetTransactions(a)` is two copies of the
projection of `tx`: for a transaction with block number `b` the two records
`{a, a, Value.String(), Hash, Int64(b)}` (a nil `BlockNumber` pointer makes the
projection itself, and so the call, panic). -/
theorem self_transfer_twice (p : Parser) (a : String) (tx : eth.Txn)
    (hsub : p.subscriptions.Check a = true) (hempty : p.store.GetTransactions a = [])
    (hfrom : tx.From = a) (hto : tx.To = a) :
    (p.processTransaction tx).store.GetTransactions a = [tx, tx] ∧
    (p.processTransaction tx).GetTransactions a = (intoNotifTxn tx).map (fun r => [r, r]) ∧
    (∀ b, tx.BlockNumber = some b →
      (p.processTransaction tx).GetTransactions a =
        some [{ From := a, To := a, Value := bigIntString tx.Value, Hash := tx.Hash,
                Block := wrapInt64 b },
              { From := a, To := a, Value := bigIntString tx.Value, Hash := tx.Hash,
                Block := wrapInt64 b }]) := by
  have hstore : (p.processTransaction tx).store.GetTransactions a = [tx, tx] := by
    rw [processTransaction_get, hempty]
    simp [retained, fanOut, hfrom, hto, hsub]
  have hreg : (p.processTransaction tx).subscriptions.Check a = true := by
    rw [(processTransaction_frame p tx).1]; exact hsub
  have hget : (p.processTransaction tx).GetTransactions a =
      (intoNotifTxn tx).map (fun r => [r, r]) := by
    rw [getTransactions_subscribed _ a hreg, hstore, collectMap_cons, collectMap_cons,
      collectMap_nil]
    cases intoNotifTxn tx with
    | none => rfl
    | some r => rfl
  refine ⟨hstore, hget, ?_⟩
  intro b hb
  rw [hget, intoNotifTxn_some tx b hb, hfrom, hto]
  rfl

/-- Witness for C11: `0x1234` is subscribed with an empty entry; after its
transfer to itself the entry holds the transaction twice and two equal records
are returned. -/
theorem self_transfer_twice_witness :
    ((parserWith ["0x1234"] testClient).processTransaction selfTransferTx).store.GetTransactions
        "0x1234" = [selfTransferTx, selfTransferTx] ∧
    ((parserWith ["0x1234"] testClient).processTransaction selfTransferTx).GetTransactions
        "0x1234" =
      some [{ From := "0x1234", To := "0x1234", Value := "7", Hash := "0xself", Block := 3 },
            { From := "0x1234", To := "0x1234", Value := "7", Hash := "0xself", Block := 3 }] := by
  have h := self_transfer_twice (parserWith ["0x1234"] testClient) "0x1234" selfTransferTx
    (by decide) (by decide) rfl rfl
  exact ⟨h.1, by rw [h.2.2 3 rfl]; decide⟩

/-- C12: `processTransaction(tx)` performs one `SaveTransaction(tx)` on the
store when the registry contains `tx.From` or `tx.To`, and otherwise returns
the state as it was (every store entry, the last-block marker, the registry
and the cursor); in both cases the registry, the cursor and the reader are
unchanged. -/
theorem processTransaction_gate (p : Parser) (tx : eth.Txn) :
    ((p.subscriptions.Check tx.From = true ∨ p.subscriptions.Check tx.To = true) →
      p.processTransaction tx = { p with store := p.store.SaveTransaction tx }) ∧
    (¬ (p.subscriptions.Check tx.From = true ∨ p.subscriptions.Check tx.To = true) →
      p.processTransaction tx = p) ∧
    (p.processTransaction tx).subscriptions = p.subscriptions ∧
    (p.processTransaction tx).GetCurrentBlock = p.GetCurrentBlock ∧
    (p.processTransaction tx).client = p.client := by
  have hf := processTransaction_frame p tx
  refine ⟨?_, ?_, hf.1, hf.2.2.1, hf.2.1⟩
  · intro h
    have hg : (p.subscriptions.Check tx.From || p.subscriptions.Check tx.To) = true := by
      simpa [Bool.or_eq_true] using h
    simp [processTransaction, hg]
  · intro h
    have hg : ¬ (p.subscriptions.Check tx.From || p.subscriptions.Check tx.To) = true := by
      simpa [Bool.or_eq_true] using h
    simp [processTransaction, hg]

/-- Witness for C12: with `0x1234` subscribed the transfer `0x1234 -> 0x5678` is
saved once; with nothing subscribed the same transfer leaves the state as it
was. -/
theorem processTransaction_gate_witness :
    (parserWith ["0x1234"] testClient).processTransaction testTx1 =
      { parserWith ["0x1234"] testClient with
        store := (parserWith ["0x1234"] testClient).store.SaveTransaction testTx1 } ∧
    (parserWith [] testClient).processTransaction testTx1 = parserWith [] testClient :=
  ⟨(processTransaction_gate (parserWith ["0x1234"] testClient) testTx1).1 (by decide),
    (processTransaction_gate (parserWith [] testClient) testTx1).2.1 (by decide)⟩

theorem foldl_saveTransaction_get (txs : List eth.Txn) (s : store.InMemStore) (k : String)
    (h : ∀ tx ∈ txs, tx.From ≠ k ∧ tx.To ≠ k) :
    (txs.foldl store.InMemStore.SaveTransaction s).GetTransactions k = s.GetTransactions k := by
  induction txs generalizing s with
  | nil => rfl
  | cons tx rest ih =>
    have h1 := h tx (List.mem_cons_self _ _)
    simp only [List.foldl_cons]
    rw [ih _ (fun t ht => h t (List.mem_cons_of_mem _ ht)), store_saveTransaction_get]
    simp [fanOut, h1.1, h1.2]

/-- C13: after `SaveTransaction(tx)` the sequence of every key `k` is the old
sequence, followed by `tx` if `k = tx.From`, followed by `tx` if `k = tx.To`
(keys other than the two are unchanged, old entries keep their order, nothing
is deduplicated); the last-block marker is unchanged; and `GetTransactions(k)`
is the empty sequence for a key absent from the map, in particular for every
key of a new store and for a key that none of the saved transactions has as
sender or recipient. -/
theorem saveTransaction_appends (s : store.InMemStore) (tx : eth.Txn) (k : String) :
    (s.SaveTransaction tx).GetTransactions k =
      s.GetTransactions k ++ (if k = tx.From then [tx] else []) ++
        (if k = tx.To then [tx] else []) ∧
    (s.SaveTransaction tx).GetLastBlock = s.GetLastBlock ∧
    (s.transactions k = none → s.GetTransactions k = []) ∧
    store.InMemStore.NewInMemStore.GetTransactions k = [] ∧
    (∀ txs : List eth.Txn, (∀ t ∈ txs, t.From ≠ k ∧ t.To ≠ k) →
      (txs.foldl store.InMemStore.SaveTransaction
        store.InMemStore.NewInMemStore).GetTransactions k = []) := by
  refine ⟨?_, rfl, ?_, rfl, ?_⟩
  · rw [store_saveTransaction_get, List.append_assoc]
    unfold fanOut
    have e1 : (tx.From = k) = (k = tx.From) := propext eq_comm
    have e2 : (tx.To = k) = (k = tx.To) := propext eq_comm
    simp only [e1, e2]
  · intro h
    simp [store.InMemStore.GetTransactions, h]
  · intro txs h
    rw [foldl_saveTransaction_get txs _ k h]
    rfl

/-- Witness for C13: in a store that holds `testTx1`, saving the self-transfer
of `0x1234` appends it twice after the older entry; the key `0x9999`, never
written, reads as the empty sequence. -/
theorem saveTransaction_appends_witness :
    ((store.InMemStore.NewInMemStore.SaveTransaction testTx1).SaveTransaction
        selfTransferTx).GetTransactions "0x1234" = [testTx1, selfTransferTx, selfTransferTx] ∧
    ([testTx1, selfTransferTx].foldl store.InMemStore.SaveTransaction
        store.InMemStore.NewInMemStore).GetTransactions "0x9999" = [] := by
  have h := saveTransaction_appends (store.InMemStore.NewInMemStore.SaveTransaction testTx1)
    selfTransferTx "0x1234"
  have h2 := saveTransaction_appends store.InMemStore.NewInMemStore testTx1 "0x9999"
  exact ⟨by rw [h.1]; decide, h2.2.2.2.2 [testTx1, selfTransferTx] (by decide)⟩

/-! ## The registry refines a set -/

theorem representsSet_new : representsSet sub.SubStore.New ∅ := by
  intro a
  simp [sub_check_new]

theorem performOnStore_represents (sm : sub.SubStore) (S : Finset String)
    (h : representsSet sm S) (op : RegistryOp) :
    (performOnStore sm op).1 = (performOnSet S op).1 ∧
    representsSet (performOnStore sm op).2 (performOnSet S op).2 := by
  cases op with
  | add a =>
    constructor
    · show (sm.Add a).1 = decide (a ∉ S)
      cases hc : sm.Check a
      · rw [sub_add_absent sm a hc]
        have := h a
        rw [hc] at this
        simp only [decide_not]
        rw [← this]; rfl
      · rw [sub_add_present sm a hc]
        have := h a
        rw [hc] at this
        simp only [decide_not]
        rw [← this]; rfl
    · intro b
      show (sm.Add a).2.Check b = decide (b ∈ insert a S)
      rw [sub_check_add, h b]
      by_cases hb : b = a <;> simp [hb]
  | remove a =>
    constructor
    · show (sm.Remove a).1 = decide (a ∈ S)
      rw [sub_remove_fst, h a]
    · intro b
      show (sm.Remove a).2.Check b = decide (b ∈ S.erase a)
      rw [sub_check_remove, h b]
      by_cases hb : b = a <;> simp [hb]
  | check a =>
    exact ⟨h a, h⟩

theorem runOnStore_represents (ops : List RegistryOp) :
    ∀ (sm : sub.SubStore) (S : Finset String), representsSet sm S →
      (runOnStore ops sm).1 = (runOnSet ops S).1 ∧
      representsSet (runOnStore ops sm).2 (runOnSet ops S).2 := by
  induction ops with
  | nil => intro sm S h; exact ⟨rfl, h⟩
  | cons op rest ih =>
    intro sm S h
    have h1 := performOnStore_represents sm S h op
    have h2 := ih _ _ h1.2
    simp only [runOnStore, runOnSet]
    exact ⟨by rw [h1.1, h2.1], h2.2⟩

/-- C14: the `SubStore` refines a set of addresses. Started from `New()` and
the empty set, every sequence of `Add`, `Remove` and `Check` calls returns the
same flags on the `SubStore` as on the set, and afterwards `Check(b)` is
membership of `b` in the set; the set operations are: `Add(a)` returns true iff
`a` was not in the set and inserts `a`, `Remove(a)` returns true iff `a` was in
the set and erases `a`, `Check(a)` tests membership. In every reachable state
`Add(a)` and `Remove(a)` leave `Check(b)` unchanged for every `b` other than
`a`. -/
theorem registry_refines_set (ops : List RegistryOp) (a b : String) :
    (runOnStore ops sub.SubStore.New).1 = (runOnSet ops ∅).1 ∧
    representsSet (runOnStore ops sub.SubStore.New).2 (runOnSet ops ∅).2 ∧
    ((runOnStore ops sub.SubStore.New).2.Check a = true ↔ a ∈ (runOnSet ops ∅).2) ∧
    (((runOnStore ops sub.SubStore.New).2.Add a).1 = true ↔ a ∉ (runOnSet ops ∅).2) ∧
    representsSet ((runOnStore ops sub.SubStore.New).2.Add a).2
      (insert a (runOnSet ops ∅).2) ∧
    (((runOnStore ops sub.SubStore.New).2.Remove a).1 = true ↔ a ∈ (runOnSet ops ∅).2) ∧
    representsSet ((runOnStore ops sub.SubStore.New).2.Remove a).2
      ((runOnSet ops ∅).2.erase a) ∧
    (b ≠ a →
      ((runOnStore ops sub.SubStore.New).2.Add a).2.Check b =
        (runOnStore ops sub.SubStore.New).2.Check b ∧
      ((runOnStore ops sub.SubStore.New).2.Remove a).2.Check b =
        (runOnStore ops sub.SubStore.New).2.Check b) := by
  have h := runOnStore_represents ops sub.SubStore.New ∅ representsSet_new
  have hadd := performOnStore_represents _ _ h.2 (RegistryOp.add a)
  have hrem := performOnStore_represents _ _ h.2 (RegistryOp.remove a)
  refine ⟨h.1, h.2, ?_, ?_, hadd.2, ?_, hrem.2, ?_⟩
  · rw [h.2 a]; simp
  · have := hadd.1
    simp only [performOnStore, performOnSet, setAdd] at this
    rw [this]; simp
  · have := hrem.1
    simp only [performOnStore, performOnSet, setRemove] at this
    rw [this]; simp
  · intro hb
    constructor
    · rw [sub_check_add]; simp [hb]
    · rw [sub_check_remove]; simp [hb]

/-- Witness for C14: after `Add(x)`, `Add(y)`, `Add(x)`, `Remove(x)`, `Check(x)`,
`Check(y)` the flags are true, true, false, true, false, true, and `Add(z)`
leaves the membership of `y` as it was. -/
theorem registry_refines_set_witness :
    (runOnStore [RegistryOp.add "x", RegistryOp.add "y", RegistryOp.add "x",
        RegistryOp.remove "x", RegistryOp.check "x", RegistryOp.check "y"]
      sub.SubStore.New).1 = [true, true, false, true, false, true] ∧
    (((runOnStore [RegistryOp.add "x", RegistryOp.add "y", RegistryOp.add "x",
        RegistryOp.remove "x", RegistryOp.check "x", RegistryOp.check "y"]
      sub.SubStore.New).2.Add "z").2.Check "y" =
     (runOnStore [RegistryOp.add "x", RegistryOp.add "y", RegistryOp.add "x",
        RegistryOp.remove "x", RegistryOp.check "x", RegistryOp.check "y"]
      sub.SubStore.New).2.Check "y") :=
  ⟨by decide,
    ((registry_refines_set [RegistryOp.add "x", RegistryOp.add "y", RegistryOp.add "x",
        RegistryOp.remove "x", RegistryOp.check "x", RegistryOp.check "y"] "z" "y").2.2.2.2.2.2.2
      (by decide)).1⟩

/-! ## Digits printed by `Nat.toDigits` and read back by the scanner -/

theorem digitChar_facts : ∀ d, d < 16 →
    digitVal (Nat.digitChar d) = some d ∧ digitVal (Nat.digitChar d).toUpper = some d ∧
    Nat.digitChar d ≠ 'x' ∧ (Nat.digitChar d).toUpper ≠ 'x' ∧
    Nat.digitChar d ≠ '+' ∧ Nat.digitChar d ≠ '-' ∧
    (Nat.digitChar d).toUpper ≠ '+' ∧ (Nat.digitChar d).toUpper ≠ '-' := by
  decide

/-- A rendering of digit characters that the scanner reads as the same digits:
the identity, or the change to uppercase. -/
theorem caseMap_facts (upper : Bool) (d : Nat) (h : d < 16) :
    digitVal ((fun c : Char => if upper then c.toUpper else c) (Nat.digitChar d)) = some d ∧
    (fun c : Char => if upper then c.toUpper else c) (Nat.digitChar d) ≠ 'x' ∧
    (fun c : Char => if upper then c.toUpper else c) (Nat.digitChar d) ≠ '+' ∧
    (fun c : Char => if upper then c.toUpper else c) (Nat.digitChar d) ≠ '-' := by
  have hf := digitChar_facts d h
  cases upper
  · simp only [Bool.false_eq_true, if_false]
    exact ⟨hf.1, hf.2.2.1, hf.2.2.2.2.1, hf.2.2.2.2.2.1⟩
  · simp only [if_true]
    exact ⟨hf.2.1, hf.2.2.2.1, hf.2.2.2.2.2.2.1, hf.2.2.2.2.2.2.2⟩

theorem toDigitsCore_mem (b : Nat) (hb : 0 < b) (fuel : Nat) :
    ∀ (n : Nat) (ds : List Char) (c : Char), c ∈ Nat.toDigitsCore b fuel n ds →
      c ∈ ds ∨ ∃ d, d < b ∧ c = Nat.digitChar d := by
  induction fuel with
  | zero => intro n ds c h; exact Or.inl h
  | succ f ih =>
    intro n ds c h
    simp only [Nat.toDigitsCore] at h
    split at h
    · rcases List.mem_cons.mp h with h1 | h1
      · exact Or.inr ⟨n % b, Nat.mod_lt _ hb, h1⟩
      · exact Or.inl h1
    · rcases ih _ _ c h with h1 | h1
      · rcases List.mem_cons.mp h1 with h2 | h2
        · exact Or.inr ⟨n % b, Nat.mod_lt _ hb, h2⟩
        · exact Or.inl h2
      · exact Or.inr h1

theorem toDigits_mem (b : Nat) (hb : 0 < b) (n : Nat) (c : Char) (h : c ∈ Nat.toDigits b n) :
    ∃ d, d < b ∧ c = Nat.digitChar d := by
  rcases toDigitsCore_mem b hb (n + 1) n [] c h with h1 | h1
  · cases h1
  · exact h1

/-- Reading back what `Nat.toDigitsCore` printed: the scanner goes through the
printed digits, which contribute exactly `n`, and continues on the old tail. -/
theorem scanDigits_toDigitsCore (b : Nat) (hb : 2 ≤ b) (g : Char → Char)
    (hg : ∀ d, d < b → digitVal (g (Nat.digitChar d)) = some d) (fuel : Nat) :
    ∀ (n : Nat) (ds : List Char), n < fuel →
      ∃ k, 0 < k ∧ ∀ acc cnt,
        scanDigits b ((Nat.toDigitsCore b fuel n ds).map g) acc cnt =
          scanDigits b (ds.map g) (acc * b ^ k + n) (cnt + k) := by
  induction fuel with
  | zero => intro n ds h; omega
  | succ f ih =>
    intro n ds hn
    have hmod : n % b < b := Nat.mod_lt _ (by omega)
    simp only [Nat.toDigitsCore]
    by_cases h0 : n / b = 0
    · rw [if_pos h0]
      refine ⟨1, by omega, ?_⟩
      intro acc cnt
      have hlt : n < b := by
        by_contra hge
        have := Nat.div_pos (Nat.le_of_not_lt hge) (by omega : 0 < b)
        omega
      simp only [List.map_cons, scanDigits, Nat.mod_eq_of_lt hlt, hg _ hlt, if_pos hlt,
        pow_one]
    · rw [if_neg h0]
      have hpos : 0 < n := by
        rcases Nat.eq_zero_or_pos n with h | h
        · subst h; simp at h0
        · exact h
      have hlt : n / b < f := by
        have := Nat.div_lt_self hpos (by omega : 1 < b)
        omega
      obtain ⟨k, hk, hscan⟩ := ih (n / b) (Nat.digitChar (n % b) :: ds) hlt
      refine ⟨k + 1, by omega, ?_⟩
      intro acc cnt
      rw [hscan]
      simp only [List.map_cons, scanDigits, hg _ hmod, if_pos hmod]
      have e : (acc * b ^ k + n / b) * b + n % b = acc * b ^ (k + 1) + n := by
        have := Nat.div_add_mod n b
        rw [pow_succ]
        nlinarith [Nat.div_add_mod n b]
      rw [e, Nat.add_assoc]

/-! ## Hex decoding -/

theorem scanDigits_hexDigits (upper : Bool) (n : Nat) :
    ∃ k, 0 < k ∧ scanDigits 16 (hexDigits upper n).data 0 0 = (n, k, []) := by
  obtain ⟨k, hk, h⟩ := scanDigits_toDigitsCore 16 (by omega)
    (fun c : Char => if upper then c.toUpper else c)
    (fun d hd => (caseMap_facts upper d hd).1) (n + 1) n [] (by omega)
  refine ⟨k, hk, ?_⟩
  have := h 0 0
  simp only [List.map_nil, scanDigits, Nat.zero_mul, Nat.zero_add] at this
  exact this

theorem hexDigits_mem (upper : Bool) (n : Nat) (c : Char) (h : c ∈ (hexDigits upper n).data) :
    c ≠ 'x' ∧ c ≠ '+' ∧ c ≠ '-' := by
  simp only [hexDigits, List.mem_map] at h
  obtain ⟨c0, hc0, rfl⟩ := h
  obtain ⟨d, hd, rfl⟩ := toDigits_mem 16 (by omega) n c0 hc0
  have := caseMap_facts upper d hd
  exact ⟨this.2.1, this.2.2.1, this.2.2.2⟩

theorem hexDigits_ne_nil (upper : Bool) (n : Nat) : (hexDigits upper n).data ≠ [] := by
  intro h
  obtain ⟨k, hk, hs⟩ := scanDigits_hexDigits upper n
  rw [h] at hs
  simp only [scanDigits, Prod.mk.injEq] at hs
  omega

theorem setString_hexDigits (upper : Bool) (n : Nat) :
    bigIntSetString (hexDigits upper n).data 16 = ((n : Int), true) := by
  obtain ⟨k, hk, hs⟩ := scanDigits_hexDigits upper n
  have hmem := hexDigits_mem upper n
  cases hL : (hexDigits upper n).data with
  | nil => exact absurd hL (hexDigits_ne_nil upper n)
  | cons c rest =>
    rw [hL] at hs hmem
    have hc := hmem c (List.mem_cons_self _ _)
    have hsign : ¬ (c = '+' ∨ c = '-') := by
      intro h
      rcases h with h | h
      · exact hc.2.1 h
      · exact hc.2.2 h
    have hk0 : ¬ k = 0 := by omega
    simp only [bigIntSetString, if_neg hsign, hs, if_neg hk0, if_neg hc.2.2, decide_True]

theorem trim_hexDigits (upper : Bool) (n : Nat) :
    stringsTrimPrefix (hexDigits upper n) "0x" = hexDigits upper n := by
  have hmem := hexDigits_mem upper n
  unfold stringsTrimPrefix
  have hpre : List.isPrefixOf "0x".data (hexDigits upper n).data = false := by
    show List.isPrefixOf ['0', 'x'] (hexDigits upper n).data = false
    cases hL : (hexDigits upper n).data with
    | nil => rfl
    | cons c rest =>
      cases rest with
      | nil => simp [List.isPrefixOf]
      | cons c2 rest2 =>
        rw [hL] at hmem
        have h2 := (hmem c2 (by simp)).1
        have h2' : ¬ 'x' = c2 := fun h => h2 h.symm
        simp [List.isPrefixOf, h2']
  rw [hpre]
  simp

theorem trim_0x_append (s : String) : stringsTrimPrefix ("0x" ++ s) "0x" = s := by
  unfold stringsTrimPrefix
  have hd : ("0x" ++ s).data = '0' :: 'x' :: s.data := by
    rw [String.data_append]; rfl
  have hl : "0x".data = ['0', 'x'] := rfl
  rw [hd, hl]
  simp [List.isPrefixOf]

theorem hexDigits_ne_empty (upper : Bool) (n : Nat) : hexDigits upper n ≠ "" := by
  intro h
  exact hexDigits_ne_nil upper n (by rw [h])

/-- C19: `parseHexBigInt` is exact and unbounded: for every natural number `n`,
applied to the lowercase or the uppercase hexadecimal digits of `n`, with or
without a leading `0x`, it returns exactly `n`; on the empty string and on `0x`
it returns 0; and for no input string is the returned pointer nil. -/
theorem parseHexBigInt_exact (n : Nat) (upper : Bool) (s : String) :
    parseHexBigInt (hexDigits upper n) = some (n : Int) ∧
    parseHexBigInt ("0x" ++ hexDigits upper n) = some (n : Int) ∧
    parseHexBigInt "" = some 0 ∧
    parseHexBigInt "0x" = some 0 ∧
    parseHexBigInt s ≠ none := by
  refine ⟨?_, ?_, by decide, by decide, ?_⟩
  · unfold parseHexBigInt
    simp only [trim_hexDigits, if_neg (hexDigits_ne_empty upper n), setString_hexDigits]
  · unfold parseHexBigInt
    simp only [trim_0x_append, if_neg (hexDigits_ne_empty upper n), setString_hexDigits]
  · unfold parseHexBigInt
    simp only []
    split <;> simp

/-- Instances of C19 beyond 64 bits: the digits of `2^64 + 10` in lowercase with
the `0x` lead and in uppercase without it both decode to `2^64 + 10`. -/
theorem parseHexBigInt_exact_witness :
    hexDigits false (2 ^ 64 + 10) = "1000000000000000a" ∧
    hexDigits true (2 ^ 64 + 10) = "1000000000000000A" ∧
    parseHexBigInt ("0x" ++ hexDigits false (2 ^ 64 + 10)) = some (2 ^ 64 + 10) ∧
    parseHexBigInt (hexDigits true (2 ^ 64 + 10)) = some (2 ^ 64 + 10) :=
  ⟨by decide, by decide, (parseHexBigInt_exact (2 ^ 64 + 10) false "").2.1,
    (parseHexBigInt_exact (2 ^ 64 + 10) true "").1⟩

/-! ## The decimal string of a value -/

theorem scanDigits_toDigits10 (m : Nat) :
    ∃ k, 0 < k ∧ scanDigits 10 (Nat.toDigits 10 m) 0 0 = (m, k, []) := by
  obtain ⟨k, hk, h⟩ := scanDigits_toDigitsCore 10 (by omega) id
    (fun d hd => (digitChar_facts d (by omega)).1) (m + 1) m [] (by omega)
  refine ⟨k, hk, ?_⟩
  have := h 0 0
  simp only [List.map_id, List.map_nil, scanDigits, Nat.zero_mul, Nat.zero_add] at this
  exact this

theorem toDigits10_ne_nil (m : Nat) : Nat.toDigits 10 m ≠ [] := by
  intro h
  obtain ⟨k, hk, hs⟩ := scanDigits_toDigits10 m
  rw [h] at hs
  simp only [scanDigits, Prod.mk.injEq] at hs
  omega

theorem setString_natRepr (m : Nat) :
    bigIntSetString (Nat.repr m).data 10 = ((m : Int), true) := by
  obtain ⟨k, hk, hs⟩ := scanDigits_toDigits10 m
  have hd : (Nat.repr m).data = Nat.toDigits 10 m := rfl
  rw [hd]
  cases hL : Nat.toDigits 10 m with
  | nil => exact absurd hL (toDigits10_ne_nil m)
  | cons c rest =>
    rw [hL] at hs
    have hc : c ∈ Nat.toDigits 10 m := by rw [hL]; exact List.mem_cons_self _ _
    obtain ⟨d, hd10, rfl⟩ := toDigits_mem 10 (by omega) m c hc
    have hf := digitChar_facts d (by omega)
    have hsign : ¬ (Nat.digitChar d = '+' ∨ Nat.digitChar d = '-') := by
      intro h
      rcases h with h | h
      · exact hf.2.2.2.2.1 h
      · exact hf.2.2.2.2.2.1 h
    have hk0 : ¬ k = 0 := by omega
    simp only [bigIntSetString, if_neg hsign, hs, if_neg hk0, if_neg hf.2.2.2.2.2.1,
      decide_True]

/-- The decimal string printed for a value reads back, through `SetString` in
base 10, as exactly that value: nothing is truncated. -/
theorem setString_toString (v : Int) : bigIntSetString (toString v).data 10 = (v, true) := by
  cases v with
  | ofNat m =>
    have e : toString (Int.ofNat m) = Nat.repr m := rfl
    rw [e, setString_natRepr]
    rfl
  | negSucc m =>
    have e : (toString (Int.negSucc m)).data = '-' :: (Nat.repr (m + 1)).data := rfl
    rw [e]
    obtain ⟨k, hk, hs⟩ := scanDigits_toDigits10 (m + 1)
    have hd : (Nat.repr (m + 1)).data = Nat.toDigits 10 (m + 1) := rfl
    have hk0 : ¬ k = 0 := by omega
    simp only [bigIntSetString, hd, or_true, if_true, hs, if_neg hk0, decide_True]
    rfl

/-! ## The wire projection -/

theorem wrapInt64_low64 (m : Nat) : low64AsInt64 m = wrapInt64 ((m % 2 ^ 64 : Nat) : Int) := by
  unfold low64AsInt64 wrapInt64
  have hn64 : (2 : Nat) ^ 64 = 18446744073709551616 := by norm_num
  have hn63 : (2 : Nat) ^ 63 = 9223372036854775808 := by norm_num
  have hp63 : (2 : Int) ^ 63 = 9223372036854775808 := by norm_num
  have hp64 : (2 : Int) ^ 64 = 18446744073709551616 := by norm_num
  rw [hn64, hn63, hp63, hp64]
  split <;> omega

theorem truncateToInt64_eq_wrap (b : Int) : truncateToInt64 b = wrapInt64 b := by
  have h := bigIntInt64_some b
  unfold bigIntInt64 at h
  simp only [Option.some.injEq] at h
  unfold truncateToInt64
  rw [wrapInt64_low64]
  exact h

theorem wrapInt64_congruent (b : Int) : (wrapInt64 b - b) % 2 ^ 64 = 0 := by
  unfold wrapInt64
  have hp63 : (2 : Int) ^ 63 = 9223372036854775808 := by norm_num
  have hp64 : (2 : Int) ^ 64 = 18446744073709551616 := by norm_num
  rw [hp63, hp64]
  omega

theorem collectMap_inRange (ts : List eth.Txn)
    (h : ∀ t ∈ ts, ∃ b, t.BlockNumber = some b ∧ isInt64 b) :
    collectMap ts =
      some (ts.map (fun t => { From := t.From, To := t.To, Value := bigIntString t.Value,
                               Hash := t.Hash, Block := t.BlockNumber.getD 0 })) := by
  induction ts with
  | nil => rfl
  | cons t rest ih =>
    obtain ⟨b, hb, hr⟩ := h t (List.mem_cons_self _ _)
    rw [collectMap_cons, ih (fun x hx => h x (List.mem_cons_of_mem _ hx)),
      intoNotifTxn_some t b hb, wrapInt64_eq_self hr]
    simp [hb]

/-- C15: for a subscribed address whose stored transactions all have a non-nil
`Value` and a `BlockNumber` within the `int64` range, `GetTransactions`
returns one record per stored transaction, in the same order; the record at
position `i` has the `From`, `To` and `Hash` of the stored transaction at
position `i`, as `Value` the decimal string of the stored value (which reads
back as exactly that value: nothing is truncated) and as `Block` the stored
block number. The call is a read: it returns no new state, and as a step of
the sequential model it leaves the state as it was. -/
theorem wire_projection (p : Parser) (a : String)
    (hsub : p.subscriptions.Check a = true)
    (hwf : ∀ t ∈ p.store.GetTransactions a,
      (∃ v, t.Value = some v) ∧ (∃ b, t.BlockNumber = some b ∧ isInt64 b)) :
    ∃ recs, p.GetTransactions a = some recs ∧
      recs.length = (p.store.GetTransactions a).length ∧
      (∀ (i : Nat) (t : eth.Txn), (p.store.GetTransactions a)[i]? = some t →
        ∃ r, recs[i]? = some r ∧ r.From = t.From ∧ r.To = t.To ∧ r.Hash = t.Hash ∧
          t.BlockNumber = some r.Block ∧
          ∃ v, t.Value = some v ∧ r.Value = toString v ∧
            bigIntSetString r.Value.data 10 = (v, true)) ∧
      (∀ s : Sys, step (Event.getTransactions a) s = s) := by
  refine ⟨(p.store.GetTransactions a).map
    (fun t => { From := t.From, To := t.To, Value := bigIntString t.Value, Hash := t.Hash,
                Block := t.BlockNumber.getD 0 }), ?_, ?_, ?_, fun _ => rfl⟩
  · rw [getTransactions_subscribed p a hsub,
      collectMap_inRange _ (fun t ht => (hwf t ht).2)]
  · simp
  · intro i t hi
    have hmem : t ∈ p.store.GetTransactions a := List.getElem?_mem hi
    obtain ⟨⟨v, hv⟩, ⟨b, hb, _⟩⟩ := hwf t hmem
    refine ⟨_, by rw [List.getElem?_map, hi]; rfl, rfl, rfl, rfl, by simp [hb], v, hv, ?_, ?_⟩
    · simp [hv, bigIntString]
    · simp only [hv, bigIntString]
      exact setString_toString v

/-- Witness for C15: with `0x1234` subscribed and the two transactions of the
end-to-end test stored, the two records come in storage order with the values
`100` and `200` as decimal strings and the blocks 1 and 2. -/
theorem wire_projection_witness :
    ∃ recs, testHistoryParser.GetTransactions "0x1234" = some recs ∧
      recs.length = 2 ∧
      recs[0]? = some { From := "0x1234", To := "0x5678", Value := "100", Hash := "0xabcd",
                        Block := 1 } ∧
      recs[1]? = some { From := "0x5678", To := "0x1234", Value := "200", Hash := "0xefgh",
                        Block := 2 } := by
  have hst : testHistoryParser.store.GetTransactions "0x1234" = [testTx1, testTx2] := by decide
  obtain ⟨recs, h1, h2, _, _⟩ := wire_projection testHistoryParser "0x1234" (by decide)
    (by
      intro t ht
      rw [hst] at ht
      simp only [List.mem_cons, List.mem_singleton, List.not_mem_nil, or_false] at ht
      rcases ht with rfl | rfl
      · exact ⟨⟨100, rfl⟩, ⟨1, rfl, by decide⟩⟩
      · exact ⟨⟨200, rfl⟩, ⟨2, rfl, by decide⟩⟩)
  have hr : testHistoryParser.GetTransactions "0x1234" =
      some [{ From := "0x1234", To := "0x5678", Value := "100", Hash := "0xabcd", Block := 1 },
            { From := "0x5678", To := "0x1234", Value := "200", Hash := "0xefgh", Block := 2 }] := by
    decide
  rw [hr] at h1
  simp only [Option.some.injEq] at h1
  subst h1
  exact ⟨_, hr, rfl, rfl, rfl⟩

/-- C18: for a transaction whose `BlockNumber` lies outside the `int64` range
`intoNotifTxn` raises no error; the record's `Block` is the truncation of the
block number to 64 bits (the low 64 bits of the magnitude read as a
two's-complement `int64`, negated for a negative number), that is the `int64`
congruent to the block number modulo `2^64`, and so differs from it; `Value`
is still the exact decimal string of the stored value, and `From`, `To` and
`Hash` are copied. -/
theorem block_number_truncation (t : eth.Txn) (b : Int)
    (hb : t.BlockNumber = some b) (hout : ¬ isInt64 b) :
    ∃ r, intoNotifTxn t = some r ∧
      r.Block = truncateToInt64 b ∧
      isInt64 r.Block ∧ (r.Block - b) % 2 ^ 64 = 0 ∧ r.Block ≠ b ∧
      r.Value = bigIntString t.Value ∧
      (∀ v, t.Value = some v →
        r.Value = toString v ∧ bigIntSetString r.Value.data 10 = (v, true)) ∧
      r.From = t.From ∧ r.To = t.To ∧ r.Hash = t.Hash := by
  refine ⟨_, intoNotifTxn_some t b hb, (truncateToInt64_eq_wrap b).symm, wrapInt64_isInt64 b,
    wrapInt64_congruent b, ?_, rfl, ?_, rfl, rfl, rfl⟩
  · intro h
    apply hout
    have := wrapInt64_isInt64 b
    simp only [] at h
    rw [h] at this
    exact this
  · intro v hv
    refine ⟨?_, ?_⟩
    · simp only [hv, bigIntString]
    · simp only [hv, bigIntString]
      exact setString_toString v

/-- Witness for C18: the block number `2^64 + 5` is projected to `Block = 5`,
while the value `2^70` is printed in full. -/
theorem block_number_truncation_witness :
    ∃ r, intoNotifTxn hugeTx = some r ∧ r.Block = 5 ∧ r.Value = "1180591620717411303424" := by
  obtain ⟨r, h1, h2, _, _, _, _, h7, _⟩ :=
    block_number_truncation hugeTx (2 ^ 64 + 5) rfl (by decide)
  refine ⟨r, h1, ?_, ?_⟩
  · rw [h2]; decide
  · rw [(h7 (2 ^ 70) rfl).1]; decide

/-! ## Error containment -/

theorem processFetched_get (blocks : Int → Option (List eth.Txn)) (x : String) (n : Nat) :
    ∀ (p : Parser) (s : Int),
      (processFetched blocks p (blockNumbers n s)).store.GetTransactions x =
        p.store.GetTransactions x ++ rangeDelta blocks p.subscriptions x n s := by
  induction n with
  | zero => intro p s; simp [processFetched, blockNumbers, rangeDelta]
  | succ k ih =>
    intro p s
    have hstep : processFetched blocks p (blockNumbers (k + 1) s) =
        processFetched blocks (((blocks s).getD []).foldl processTransaction p)
          (blockNumbers k (s + 1)) := by
      unfold processFetched
      simp only [blockNumbers, List.filter_cons]
      cases hb : blocks s with
      | none => simp
      | some txs => simp [hb]
    rw [hstep, ih, foldl_processTransaction_get, (foldl_processTransaction_frame _ p).1,
      List.append_assoc]
    rfl

/-- Error containment on every range that ends below the largest `int64`: the
scan terminates, every block of the range is requested once in ascending
order whether its fetch fails or not, the registry is unchanged, and the
sequence of every address is the one produced by processing, in ascending
block order, only the transactions of the blocks whose fetch succeeded. -/
theorem scan_contains_errors (fuel : Nat) (p : Parser) (startBlock endBlock : Int)
    (hs : minInt64 ≤ startBlock) (he : endBlock < maxInt64)
    (hf : rangeLength startBlock endBlock + 1 ≤ fuel) :
    ∃ q, indexSubbedTransactionsForBlockRange fuel p startBlock endBlock = some q ∧
      q.client.requested =
        p.client.requested ++ blockNumbers (rangeLength startBlock endBlock) startBlock ∧
      q.subscriptions = p.subscriptions ∧
      ∀ x, q.store.GetTransactions x =
        (processFetched p.client.blocks p
          (blockNumbers (rangeLength startBlock endBlock) startBlock)).store.GetTransactions x := by
  refine ⟨_, index_eq_scanBlocks _ fuel p startBlock endBlock rfl hs he hf,
    (scanBlocks_frame _ p _).2.2.2, (scanBlocks_frame _ p _).1, ?_⟩
  intro x
  rw [scanBlocks_get, processFetched_get]

/-- Error containment on a reader whose fetch of block 1 fails: the scan of
`[0, 2]` with `0x1234` subscribed requests the blocks 0, 1, 2 and stores for
`0x1234` the transactions of the blocks 0 and 2. -/
theorem scan_contains_errors_witness :
    ∃ q, indexSubbedTransactionsForBlockRange 4 (parserWith ["0x1234"] gapClient) 0 2 = some q ∧
      q.client.requested = [0, 1, 2] ∧
      q.store.GetTransactions "0x1234" = [testTx1, testTx2] := by
  obtain ⟨q, h1, h2, _, h4⟩ :=
    scan_contains_errors 4 (parserWith ["0x1234"] gapClient) 0 2 (by decide) (by decide)
      (by decide)
  refine ⟨q, h1, ?_, ?_⟩
  · rw [h2]; decide
  · rw [h4]; decide

/-- C17, at the failing input: a scan whose end block is the largest `int64`
(here `[2^63-2, 2^63-1]`, `0x1234` subscribed, every fetch successful with the
transfer `0x1234 -> 0x5678`) never terminates, so no store state after the
call exists; in the sequential model its third iteration has processed the
block `-2^63`, outside the range, and the entry of `0x1234` holds three
transactions where the two blocks of the range give two. -/
theorem scan_at_maxInt64_overruns :
    (¬ ∃ (fuel : Nat) (q : Parser),
      indexSubbedTransactionsForBlockRange fuel
        (parserWith ["0x1234"] (constClient maxInt64 [testTx1])) (maxInt64 - 1) maxInt64
          = some q) ∧
    (run [Event.iterate, Event.iterate, Event.iterate] scanAtMax).parser.client.requested =
      [maxInt64 - 1, maxInt64, minInt64] ∧
    (run [Event.iterate, Event.iterate, Event.iterate]
      scanAtMax).parser.store.GetTransactions "0x1234" = [testTx1, testTx1, testTx1] ∧
    (processFetched (constClient maxInt64 [testTx1]).blocks
      (parserWith ["0x1234"] (constClient maxInt64 [testTx1]))
      [maxInt64 - 1, maxInt64]).store.GetTransactions "0x1234" = [testTx1, testTx1] := by
  refine ⟨?_, by decide, by decide, by decide⟩
  rintro ⟨fuel, q, h⟩
  rw [index_maxInt64_diverges fuel _ (maxInt64 - 1) (by decide)] at h
  cases h

/-! ## Termination and the number of fetches -/

/-- Termination on every range that ends below the largest `int64`: the scan
ends within `max(0, end - start + 1) + 1` evaluations of the loop condition and
performs exactly `max(0, end - start + 1)` block fetches, those of the blocks
of the range in ascending order. -/
theorem scan_terminates_below_max (fuel : Nat) (p : Parser) (startBlock endBlock : Int)
    (hs : minInt64 ≤ startBlock) (he : endBlock < maxInt64)
    (hf : rangeLength startBlock endBlock + 1 ≤ fuel) :
    ∃ q, indexSubbedTransactionsForBlockRange fuel p startBlock endBlock = some q ∧
      q.client.requested =
        p.client.requested ++ blockNumbers (rangeLength startBlock endBlock) startBlock ∧
      q.client.requested.length = p.client.requested.length + rangeLength startBlock endBlock ∧
      (rangeLength startBlock endBlock : Int) = max 0 (endBlock - startBlock + 1) := by
  refine ⟨_, index_eq_scanBlocks _ fuel p startBlock endBlock rfl hs he hf,
    (scanBlocks_frame _ p _).2.2.2, ?_, ?_⟩
  · rw [(scanBlocks_frame _ p _).2.2.2, List.length_append, blockNumbers_length]
  · unfold rangeLength
    omega

/-- Termination on the range `[0, 2]` of the end-to-end test: three fetches. -/
theorem scan_terminates_below_max_witness :
    ∃ q, indexSubbedTransactionsForBlockRange 4 (parserWith [] testClient) 0 2 = some q ∧
      q.client.requested = [0, 1, 2] := by
  obtain ⟨q, h1, h2, _, _⟩ :=
    scan_terminates_below_max 4 (parserWith [] testClient) 0 2 (by decide) (by decide)
      (by decide)
  exact ⟨q, h1, by rw [h2]; decide⟩

/-- C20, at the failing input: for every `int64` start block the scan up to the
largest `int64` does not terminate, whatever the fuel; on `[2^63-1, 2^63-1]`,
a range of one block, the sequential model performs a second fetch, of block
`-2^63`, after the increment has wrapped, and a third one after it. -/
theorem scan_to_maxInt64_never_ends :
    (∀ (p : Parser) (startBlock : Int), isInt64 startBlock →
      ¬ ∃ (fuel : Nat) (q : Parser),
        indexSubbedTransactionsForBlockRange fuel p startBlock maxInt64 = some q) ∧
    (run [Event.iterate, Event.iterate, Event.iterate]
      { parser := parserWith [] (constClient maxInt64 []),
        scan := some { kind := ScanKind.poll, blockNumber := maxInt64, endBlock := maxInt64 },
        pendingBackfills := 0 }).parser.client.requested =
      [maxInt64, minInt64, minInt64 + 1] := by
  refine ⟨?_, by decide⟩
  rintro p s hs ⟨fuel, q, h⟩
  rw [index_maxInt64_diverges fuel p s hs] at h
  cases h

/-! ## Coverage of the blocks below the cursor -/

theorem covered_boot (p : Parser) (s0 : Sys) (L : Int) (hL : p.client.latestBlock = some L)
    (h0 : 0 ≤ L) (h1 : L ≤ maxInt64) (hb : boot p = some s0) :
    s0.covered (lookbackStart L) := by
  unfold boot Client.GetLatestBlock at hb
  rw [hL] at hb
  simp only [Option.some.injEq] at hb
  subst hb
  rw [lookbackStart_eq L h0 h1]
  have hle := (lookbackStart_bounds L h0).2.1
  simp only [Sys.covered]
  exact ⟨fun n hn1 hn2 => by omega, Or.inr hle⟩

theorem covered_step (lo : Int) (e : Event) (s : Sys) (hi : s.inv) (hc : s.covered lo) :
    (step e s).covered lo := by
  obtain ⟨_, _, _, h4⟩ := hi
  cases e with
  | iterate =>
    cases hs : s.scan with
    | none => simp only [step, hs]; exact hc
    | some sc =>
      obtain ⟨hb0, hbe, hbk⟩ := h4 sc hs
      obtain ⟨k, bn, en⟩ := sc
      simp only [Sys.covered, hs] at hc
      simp only at hb0 hbe hbk
      have hreq := (indexBlock_frame s.parser bn).2.2.2
      have hcur := indexBlock_cursor_cases s.parser bn
      by_cases hle : bn ≤ en
      · have hw : wrapInt64 (bn + 1) = bn + 1 :=
          wrapInt64_succ (by unfold minInt64; omega) (by omega)
        simp only [step, hs, if_pos hle, hw, Sys.covered]
        have hgrow : ∀ n, n ∈ s.parser.client.requested →
            n ∈ (s.parser.indexBlock bn).client.requested := by
          intro n hn; rw [hreq]; exact List.mem_append_left _ hn
        have hnew : bn ∈ (s.parser.indexBlock bn).client.requested := by
          rw [hreq]; simp
        have hbelow : (∀ n, lo ≤ n → n < bn → n ∈ s.parser.client.requested) →
            ∀ n, lo ≤ n → n < bn + 1 → n ∈ (s.parser.indexBlock bn).client.requested := by
          intro hA n hn1 hn2
          by_cases hn : n = bn
          · rw [hn]; exact hnew
          · exact hgrow n (hA n hn1 (by omega))
        cases k with
        | initial =>
          have hcb := hbk (by decide)
          refine ⟨hbelow hc.1, Or.inl ?_⟩
          rcases hcur with h | h <;> rw [h] <;> omega
        | poll =>
          refine ⟨hbelow hc.1, ?_⟩
          have hcb := hbk (by decide)
          intro n hn1 hn2
          rcases hcur with h | h
          · rw [h] at hn2
            exact hbelow hc.1 n hn1 (by omega)
          · rw [h] at hn2
            exact hgrow n (hc.2 n hn1 hn2)
        | backfill =>
          refine ⟨fun n hn1 hn2 => hgrow n (hc.1 n hn1 hn2), ?_⟩
          rcases hcur with h | h <;> rw [h] <;> omega
      · simp only [step, hs, if_neg hle, Sys.covered]
        intro n hn1 hn2
        cases k with
        | initial =>
          simp only at hc
          rcases hc.2 with h | h
          · exact hc.1 n hn1 (by omega)
          · exact absurd h hle
        | poll => exact hc.2 n hn1 hn2
        | backfill => exact hc.1 n hn1 (by simp only at hc; omega)
  | tick =>
    cases hs : s.scan with
    | some sc => simp only [step, hs]; exact hc
    | none =>
      simp only [Sys.covered, hs] at hc
      cases hL : s.parser.client.latestBlock with
      | none => simp only [step, hs, Client.GetLatestBlock, hL, Sys.covered]; exact hc
      | some L =>
        simp only [step, hs, Client.GetLatestBlock, hL, Sys.covered]
        exact ⟨fun n hn1 hn2 => hc n hn1 (by omega), hc⟩
  | startBackfill =>
    cases hs : s.scan with
    | some sc => simp only [step, hs]; exact hc
    | none =>
      simp only [Sys.covered, hs] at hc
      cases hp : s.pendingBackfills with
      | zero => simp only [step, hs, hp, Sys.covered]; exact hc
      | succ k =>
        simp only [step, hs, hp, Sys.covered]
        exact ⟨hc, le_refl _⟩
  | subscribe a =>
    have hf := subscribe_frame s.parser a
    simp only [step, Subscribe, Sys.covered, hf.2.1, hf.2.2]
    exact hc
  | unsubscribe a => exact hc
  | getTransactions a => exact hc
  | reader l b => exact hc

theorem covered_run (lo : Int) (evs : List Event) (s : Sys) (hi : s.inv) (hc : s.covered lo)
    (he : ∀ e ∈ evs, e.belowMax = true) :
    (run evs s).covered lo := by
  induction evs generalizing s with
  | nil => exact hc
  | cons e rest ih =>
    have h1 : e.belowMax = true := he e (List.mem_cons_self _ _)
    have h2 : ∀ x ∈ rest, x.belowMax = true := fun x hx => he x (List.mem_cons_of_mem _ hx)
    exact ih (step e s) (inv_step e s hi h1) (covered_step lo e s hi hc) h2

theorem covered_initialized (lo : Int) (s : Sys) (hc : s.covered lo)
    (hd : initialized s = true) :
    ∀ n, lo ≤ n → n ≤ s.parser.GetCurrentBlock → n ∈ s.parser.client.requested := by
  unfold GetCurrentBlock getCurrentBlock
  unfold initialized at hd
  unfold Sys.covered at hc
  cases hs : s.scan with
  | none => rw [hs] at hc; exact hc
  | some sc =>
    rw [hs] at hc hd
    obtain ⟨k, bn, en⟩ := sc
    cases k with
    | initial => simp at hd
    | poll => exact hc.2
    | backfill =>
      intro n hn1 hn2
      simp only at hc
      exact hc.1 n hn1 (by omega)

/-- C16, counterexample: with latest block 21 and every fetch successful the
initial indexing scans `[1, 21]`; afterwards the cursor is 21 and block 0,
although `0 <= 0 <= Cursor`, has never been requested. -/
theorem coverage_from_zero_counterexample :
    ¬ (∀ (c : Client) (s0 : Sys) (evs : List Event), c.requested = [] →
        boot (New sub.SubStore.New c store.InMemStore.NewInMemStore) = some s0 →
        initialized (run evs s0) = true →
        ∀ n, 0 ≤ n → n ≤ (run evs s0).parser.GetCurrentBlock →
          n ∈ (run evs s0).parser.client.requested) := by
  intro h
  obtain ⟨q, hstart, hcur, _, hreq, _⟩ :=
    start_requests_window 22
      (New sub.SubStore.New (constClient 21 []) store.InMemStore.NewInMemStore) 21 rfl
      (by intro n; simp [New, constClient]) (by decide) (by decide) (by decide)
  obtain ⟨s0, hboot, hrun⟩ := start_eq_boot_run 22 _ q hstart
  have h0 := h (constClient 21 []) s0 (List.replicate 22 Event.iterate) rfl hboot
    (by rw [hrun]; rfl) 0 (le_refl _) (by rw [hrun, hcur]; decide)
  rw [hrun, hreq (by decide)] at h0
  simp only [New, constClient, List.nil_append, mem_blockNumbers] at h0
  omega

/-- C16, amended: in the sequential model started on a fresh parser with
latest block `L0`, `0 <= L0 < 2^63 - 1`, while the reader reports latest
blocks below the largest `int64`, in every state reached after the initial
indexing has ended (between or inside polling ticks and backfills, after any
`Subscribe`, `Unsubscribe` and `GetTransactions` calls) every block number `n`
with `max(0, L0 - 20) <= n <= Cursor` has been requested from the reader at
least once; and the loop body, the only place where a block is requested,
passes the transactions of a fetched block to `processTransaction` in order.
Blocks below `L0 - 20` are not covered. -/
theorem coverage_from_lookback (c : Client) (L0 : Int) (s0 : Sys) (evs : List Event)
    (hL : c.latestBlock = some L0) (h0 : 0 ≤ L0) (h1 : L0 < maxInt64)
    (hboot : boot (New sub.SubStore.New c store.InMemStore.NewInMemStore) = some s0)
    (hevs : ∀ ev ∈ evs, ev.belowMax = true)
    (hdone : initialized (run evs s0) = true) :
    (∀ n, lookbackStart L0 ≤ n → n ≤ (run evs s0).parser.GetCurrentBlock →
      n ∈ (run evs s0).parser.client.requested) ∧
    (∀ (p : Parser) (n : Int) (txs : List eth.Txn), p.client.blocks n = some txs →
      p.indexBlock n =
        updateCurrentBlock
          (txs.foldl processTransaction
            { p with client := { p.client with requested := p.client.requested ++ [n] } })
          n) := by
  have hinv : s0.inv := inv_boot _ s0 hboot rfl (by
    intro L hLL
    have hLL' : c.latestBlock = some L := hLL
    rw [hL] at hLL'
    simp only [Option.some.injEq] at hLL'
    omega)
  have hcov : s0.covered (lookbackStart L0) :=
    covered_boot _ s0 L0 hL h0 (by omega) hboot
  exact ⟨covered_initialized _ _ (covered_run _ evs s0 hinv hcov hevs) hdone,
    fun p n txs h => indexBlock_ok p n txs h⟩

/-- Witness for C16: in the end-to-end test (latest block 2), in the middle of
the backfill spawned by `Subscribe("0x1234")`, when the cursor has dropped to
1, the blocks 0 and 1 have been requested. -/
theorem coverage_from_lookback_witness :
    (run [Event.iterate, Event.iterate, Event.iterate, Event.iterate,
        Event.subscribe "0x1234", Event.startBackfill, Event.iterate, Event.iterate]
      { parser := parserWith [] testClient,
        scan := some { kind := ScanKind.initial, blockNumber := 0, endBlock := 2 },
        pendingBackfills := 0 }).parser.GetCurrentBlock = 1 ∧
    (1 : Int) ∈ (run [Event.iterate, Event.iterate, Event.iterate, Event.iterate,
        Event.subscribe "0x1234", Event.startBackfill, Event.iterate, Event.iterate]
      { parser := parserWith [] testClient,
        scan := some { kind := ScanKind.initial, blockNumber := 0, endBlock := 2 },
        pendingBackfills := 0 }).parser.client.requested :=
  ⟨by decide,
    (coverage_from_lookback testClient 2 _
      [Event.iterate, Event.iterate, Event.iterate, Event.iterate,
        Event.subscribe "0x1234", Event.startBackfill, Event.iterate, Event.iterate]
      rfl (by decide) (by decide) boot_testClient
      (List.all_eq_true.mp (by rfl))
      (by decide)).1 1 (by decide) (by decide)⟩

/-! ## The last-block marker of the store and the cursor -/

theorem indexBlock_mirror (p : Parser) (n : Int)
    (h : p.store.GetLastBlock = p.GetCurrentBlock) :
    (p.indexBlock n).store.GetLastBlock = (p.indexBlock n).GetCurrentBlock := by
  unfold store.InMemStore.GetLastBlock GetCurrentBlock getCurrentBlock at *
  cases hb : p.client.blocks n with
  | none =>
    have hf := indexBlock_cursor_fail p n hb
    rw [hf.1, hf.2]; exact h
  | some txs =>
    have hk := indexBlock_cursor_ok p n (by rw [hb]; simp)
    rw [hk.1, hk.2]

theorem step_mirror (e : Event) (s : Sys)
    (h : s.parser.store.GetLastBlock = s.parser.GetCurrentBlock) :
    (step e s).parser.store.GetLastBlock = (step e s).parser.GetCurrentBlock := by
  cases e with
  | iterate =>
    cases hs : s.scan with
    | none => simp only [step, hs]; exact h
    | some sc =>
      by_cases hle : sc.blockNumber ≤ sc.endBlock
      · simp only [step, hs, if_pos hle]
        exact indexBlock_mirror s.parser sc.blockNumber h
      · simp only [step, hs, if_neg hle]; exact h
  | tick =>
    cases hs : s.scan with
    | some sc => simp only [step, hs]; exact h
    | none =>
      cases hL : s.parser.client.latestBlock with
      | none => simp only [step, hs, Client.GetLatestBlock, hL]; exact h
      | some L => simp only [step, hs, Client.GetLatestBlock, hL]; exact h
  | startBackfill =>
    cases hs : s.scan with
    | some sc => simp only [step, hs]; exact h
    | none =>
      cases hp : s.pendingBackfills with
      | zero => simp only [step, hs, hp]; exact h
      | succ k => simp only [step, hs, hp]; exact h
  | subscribe a =>
    have hf := subscribe_frame s.parser a
    unfold store.InMemStore.GetLastBlock GetCurrentBlock getCurrentBlock at *
    simp only [step, Subscribe, hf.1, hf.2.1]
    exact h
  | unsubscribe a => exact h
  | getTransactions a => exact h
  | reader l b => exact h

theorem run_mirror (evs : List Event) (s : Sys)
    (h : s.parser.store.GetLastBlock = s.parser.GetCurrentBlock) :
    (run evs s).parser.store.GetLastBlock = (run evs s).parser.GetCurrentBlock := by
  induction evs generalizing s with
  | nil => exact h
  | cons e rest ih => exact ih (step e s) (step_mirror e s h)

theorem index_mirror (fuel : Nat) :
    ∀ (p q : Parser) (blockNumber endBlock : Int),
      p.store.GetLastBlock = p.GetCurrentBlock →
      indexSubbedTransactionsForBlockRange fuel p blockNumber endBlock = some q →
      q.store.GetLastBlock = q.GetCurrentBlock := by
  induction fuel with
  | zero => intro p q b e _ h; cases h
  | succ f ih =>
    intro p q b e hm h
    by_cases hle : b ≤ e
    · simp only [indexSubbedTransactionsForBlockRange, if_pos hle] at h
      exact ih _ q _ e (indexBlock_mirror p b hm) h
    · simp only [indexSubbedTransactionsForBlockRange, if_neg hle, Option.some.injEq] at h
      subst h
      exact hm

theorem boot_keeps_state (p : Parser) (s0 : Sys) (h : boot p = some s0) : s0.parser = p := by
  unfold boot at h
  cases hL : p.client.GetLatestBlock with
  | none => rw [hL] at h; cases h
  | some L =>
    rw [hL] at h
    simp only [Option.some.injEq] at h
    subst h
    rfl

/-- C21: the last-block marker of the store mirrors the cursor. For every
registry `subs` and every reader, `store.GetLastBlock()` equals
`parser.GetCurrentBlock()` on `New(subs, client, NewInMemStore())` and in every
state the sequential model reaches from it, after each loop iteration of the
initial indexing, of polling ticks and of backfills and after each
`Subscribe`, `Unsubscribe` and `GetTransactions` call, whatever the reader
answers and however it changes; and the operations run as a whole (`Start`, a
polling tick, a backfill) return a state with the same property whenever they
return. -/
theorem marker_mirrors_cursor (subs : sub.SubStore) (c : Client) (evs : List Event) :
    (New subs c store.InMemStore.NewInMemStore).store.GetLastBlock =
      (New subs c store.InMemStore.NewInMemStore).GetCurrentBlock ∧
    (∀ s0, boot (New subs c store.InMemStore.NewInMemStore) = some s0 →
      (run evs s0).parser.store.GetLastBlock = (run evs s0).parser.GetCurrentBlock) ∧
    (∀ (p : Parser), p.store.GetLastBlock = p.GetCurrentBlock →
      (∀ fuel q, Start fuel p = StartResult.indexed q →
        q.store.GetLastBlock = q.GetCurrentBlock) ∧
      (∀ fuel q, tick fuel p = some q → q.store.GetLastBlock = q.GetCurrentBlock) ∧
      (∀ fuel q, backfill fuel p = some q → q.store.GetLastBlock = q.GetCurrentBlock) ∧
      (∀ a, (p.Subscribe a).parser.store.GetLastBlock =
        (p.Subscribe a).parser.GetCurrentBlock) ∧
      (∀ a, (p.Unsubscribe a).2.store.GetLastBlock = (p.Unsubscribe a).2.GetCurrentBlock)) := by
  refine ⟨rfl, ?_, ?_⟩
  · intro s0 hb
    apply run_mirror
    rw [boot_keeps_state _ s0 hb]
    rfl
  · intro p hm
    refine ⟨?_, ?_, ?_, ?_, fun _ => hm⟩
    · intro fuel q h
      unfold Start at h
      cases hL : p.client.GetLatestBlock with
      | none => rw [hL] at h; cases h
      | some L =>
        rw [hL] at h
        simp only [] at h
        cases hi : indexSubbedTransactionsForBlockRange fuel p
            (if wrapInt64 (L - LOOKBACK_FROM_LATEST) < 0 then 0
              else wrapInt64 (L - LOOKBACK_FROM_LATEST)) L with
        | none => rw [hi] at h; cases h
        | some r =>
          rw [hi] at h
          simp only [StartResult.indexed.injEq] at h
          subst h
          exact index_mirror fuel p r _ L hm hi
    · intro fuel q h
      unfold tick at h
      cases hL : p.client.GetLatestBlock with
      | none =>
        rw [hL] at h
        simp only [Option.some.injEq] at h
        subst h
        exact hm
      | some L =>
        rw [hL] at h
        exact index_mirror fuel p q _ L hm h
    · intro fuel q h
      exact index_mirror fuel p q _ _ hm h
    · intro a
      have hf := subscribe_frame p a
      unfold store.InMemStore.GetLastBlock GetCurrentBlock getCurrentBlock at *
      unfold Subscribe
      rw [hf.1, hf.2.1]
      exact hm

/-- Witness for C21: in the end-to-end test, in the middle of the backfill
spawned by `Subscribe("0x1234")`, marker and cursor are both 1. -/
theorem marker_mirrors_cursor_witness :
    (run [Event.iterate, Event.iterate, Event.iterate, Event.iterate,
        Event.subscribe "0x1234", Event.startBackfill, Event.iterate, Event.iterate]
      { parser := parserWith [] testClient,
        scan := some { kind := ScanKind.initial, blockNumber := 0, endBlock := 2 },
        pendingBackfills := 0 }).parser.GetCurrentBlock = 1 ∧
    (run [Event.iterate, Event.iterate, Event.iterate, Event.iterate,
        Event.subscribe "0x1234", Event.startBackfill, Event.iterate, Event.iterate]
      { parser := parserWith [] testClient,
        scan := some { kind := ScanKind.initial, blockNumber := 0, endBlock := 2 },
        pendingBackfills := 0 }).parser.store.GetLastBlock =
    (run [Event.iterate, Event.iterate, Event.iterate, Event.iterate,
        Event.subscribe "0x1234", Event.startBackfill, Event.iterate, Event.iterate]
      { parser := parserWith [] testClient,
        scan := some { kind := ScanKind.initial, blockNumber := 0, endBlock := 2 },
        pendingBackfills := 0 }).parser.GetCurrentBlock :=
  ⟨by decide,
    (marker_mirrors_cursor sub.SubStore.New testClient
      [Event.iterate, Event.iterate, Event.iterate, Event.iterate,
        Event.subscribe "0x1234", Event.startBackfill, Event.iterate, Event.iterate]).2.1 _
      boot_testClient⟩

/-! ## The cursor in the interleaving model -/

